import Mathlib

/-!
Shallow embedding of the moleculer service registry (`src/registry/registry.js`)
and the catalogs it orchestrates.  The `Registry` class from the source is
embedded as a pure state-passing structure; JavaScript objects that can be
absent (`svc.actions`, `svc.version`, ...) become `Option`s, JavaScript maps
become association lists, and a thrown `TypeError` becomes `Except.error`.
Object identity of `Node` objects (the `service.node != node` comparison in the
source) is embedded through an explicit `ref` field: two nodes are the same
JavaScript object exactly when their `ref`s agree.

The four catalogs (`ServiceCatalog`, `ActionCatalog`, `EventCatalog`,
`NodeCatalog`) are not part of this repository's sources; they are modelled
from the specification (sections 3, 4.2-4.5) as documented on each definition.
-/

namespace Moleculer

/-- A node object.  `ref` is the object-identity surrogate: two `Node` values
denote the same JavaScript object exactly when their `ref`s are equal.  `id` is
the stable node id used as a catalog key. -/
structure Node where
  ref : Nat
  id : String
deriving DecidableEq, Repr

/-- Service name as carried by a descriptor; `none` embeds a missing
(`undefined`) `name` field of a malformed descriptor. -/
abbrev SvcName := Option String

/-- Service version; `none` embeds a missing (`undefined`) `version` field. -/
abbrev SvcVer := Option Nat

/-- Identity key of a service: (name, version, owning node id). -/
abbrev SKey := SvcName × SvcVer × String

/-- An action descriptor: its name plus an opaque schema/handler payload. -/
structure ActionD where
  name : String
  payload : Nat
deriving DecidableEq, Repr

/-- An event descriptor: name, optional group, opaque handler payload. -/
structure EventD where
  name : String
  group : Option String
  payload : Nat
deriving DecidableEq, Repr

/-- Modelled from the spec: an Endpoint (section 3) carries a back-reference to
the node id, a back-reference to the service identity key, the action or event
it serves, and an availability flag owned by external collaborators. -/
structure Endpoint (α : Type) where
  nodeId : String
  service : SKey
  data : α
  available : Bool
deriving DecidableEq, Repr

/-- Modelled from the spec: an EndpointList (section 3) is the set of
endpoints registered for one logical name, at most one per node. -/
structure EndpointList (α : Type) where
  name : String
  endpoints : List (Endpoint α)
deriving DecidableEq, Repr

/-- A service record held by the ServiceCatalog: owning node, identity,
settings, and the service's own recorded name-to-action and name-to-event
maps (spec section 3). -/
structure ServiceItem where
  node : Node
  name : SvcName
  version : SvcVer
  settings : Option Nat
  actions : List (String × ActionD)
  events : List (String × EventD)
deriving DecidableEq, Repr

/-- An incoming service descriptor of a snapshot (`serviceList` entry in
`registerServices`): `actions`/`events` are `none` when the corresponding map
is missing from the descriptor. -/
structure ServiceDesc where
  name : SvcName
  version : SvcVer
  settings : Option Nat
  actions : Option (List (String × ActionD))
  events : Option (List (String × EventD))
deriving DecidableEq, Repr

/-- The whole registry state: broker node id, the local node with its owned
service list, the ServiceCatalog's service list, and the two endpoint
catalogs. -/
structure Registry where
  brokerNodeId : String
  localNode : Node
  localServices : List (SvcName × SvcVer)
  services : List ServiceItem
  actions : List (EndpointList ActionD)
  events : List (EndpointList EventD)
deriving DecidableEq, Repr

/-- Replace the first element satisfying `p` by its image under `f`. -/
def updateFirst (p : α → Bool) (f : α → α) : List α → List α
  | [] => []
  | x :: xs => if p x then f x :: xs else x :: updateFirst p f xs

/-- Remove the first element satisfying `p`. -/
def removeFirst (p : α → Bool) : List α → List α
  | [] => []
  | x :: xs => if p x then xs else x :: removeFirst p xs

/-- Modelled from the spec: upsert into an EndpointList — get-or-create/replace
the endpoint for the node (section 4.4); re-registering the same node replaces
rather than duplicates. -/
def epListUpsert (nodeId : String) (skey : SKey) (a : α) (eps : List (Endpoint α)) :
    List (Endpoint α) :=
  if eps.any (fun ep => decide (ep.nodeId = nodeId)) then
    eps.map (fun ep => if ep.nodeId = nodeId then ⟨nodeId, skey, a, true⟩ else ep)
  else
    eps ++ [⟨nodeId, skey, a, true⟩]

/-- Modelled from the spec: `ActionCatalog.add` / `EventCatalog.add`
(section 4.4) — get-or-create the EndpointList for the name, then upsert the
endpoint for the node into it. -/
def epCatalogAdd (name : String) (nodeId : String) (skey : SKey) (a : α)
    (cat : List (EndpointList α)) : List (EndpointList α) :=
  if cat.any (fun L => decide (L.name = name)) then
    cat.map (fun L =>
      if L.name = name then ⟨L.name, epListUpsert nodeId skey a L.endpoints⟩ else L)
  else
    cat ++ [⟨name, [⟨nodeId, skey, a, true⟩]⟩]

/-- Modelled from the spec: `ActionCatalog.remove` / `EventCatalog.remove`
(section 4.4) — remove the endpoint registered for `nodeId` under `name`; if
the EndpointList becomes empty the name entry is deleted entirely. -/
def epCatalogRemove (name : String) (nodeId : String)
    (cat : List (EndpointList α)) : List (EndpointList α) :=
  cat.filterMap (fun L =>
    if L.name = name then
      (let eps := L.endpoints.filter (fun ep => decide (ep.nodeId ≠ nodeId))
       if eps.isEmpty then none else some ⟨L.name, eps⟩)
    else some L)

/-- Modelled from the spec: `ActionCatalog.get` (section 4.4) — the
EndpointList for the name, or absent. -/
def epCatalogGet (name : String) (cat : List (EndpointList α)) :
    Option (EndpointList α) :=
  cat.find? (fun L => decide (L.name = name))

/-- Modelled from the spec: `EndpointList.getEndpointByNodeID` (section 4.5) —
exact lookup by node id, ignoring availability and strategy. -/
def getEndpointByNodeID (nodeId : String) (L : EndpointList α) :
    Option (Endpoint α) :=
  L.endpoints.find? (fun ep => decide (ep.nodeId = nodeId))

/-- The service-lookup predicate for an identity key, shared by the catalog
lookup and the in-place service updates. -/
def predSkey (skey : SKey) : ServiceItem → Bool :=
  fun s => decide (s.name = skey.1 ∧ s.version = skey.2.1 ∧ s.node.id = skey.2.2)

/-- Modelled from the spec: `ServiceCatalog.get(name, version, nodeID)`
(section 4.3) — look up a service by its identity key. -/
def svcFind (name : SvcName) (version : SvcVer) (nodeId : String)
    (st : Registry) : Option ServiceItem :=
  st.services.find? (predSkey (name, version, nodeId))

/-- Modelled from the spec: `ServiceCatalog.add(node, name, version, settings)`
(section 4.3) — creates a fresh service record attached to the node and
appends it to the catalog. -/
def servicesAdd (node : Node) (name : SvcName) (version : SvcVer)
    (settings : Option Nat) (st : Registry) : Registry :=
  { st with services := st.services ++ [⟨node, name, version, settings, [], []⟩] }

/-- Modelled from the spec: `ServiceItem.update(descriptor)` (section 4.3)
merges settings only; action/event reconciliation is the Registry's
responsibility. -/
def serviceUpdate (name : SvcName) (version : SvcVer) (nodeId : String)
    (settings : Option Nat) (st : Registry) : Registry :=
  let svcs := updateFirst (predSkey (name, version, nodeId))
    (fun s => { s with settings := settings }) st.services
  { st with services := svcs }

/-- `service.actions[action.name] = action`: upsert into the service's own
name-keyed map, replacing in place or appending. -/
def assocUpsertA (a : ActionD) (m : List (String × ActionD)) :
    List (String × ActionD) :=
  if m.any (fun p => decide (p.1 = a.name)) then
    m.map (fun p => if p.1 = a.name then (a.name, a) else p)
  else m ++ [(a.name, a)]

/-- `service.events[event.name] = event`: upsert into the service's own
name-keyed map. -/
def assocUpsertE (e : EventD) (m : List (String × EventD)) :
    List (String × EventD) :=
  if m.any (fun p => decide (p.1 = e.name)) then
    m.map (fun p => if p.1 = e.name then (e.name, e) else p)
  else m ++ [(e.name, e)]

/-- Modelled from the spec: `service.addAction(action)` — record the action on
the service's own name-to-action map, keyed by the action's name (section 3:
the map is part of the Service entity). -/
def serviceAddAction (skey : SKey) (a : ActionD) (st : Registry) : Registry :=
  let svcs := updateFirst (predSkey skey)
    (fun s => { s with actions := assocUpsertA a s.actions }) st.services
  { st with services := svcs }

/-- Modelled from the spec: `service.addEvent(event)` — record the event on
the service's own name-to-event map, keyed by the event's name. -/
def serviceAddEvent (skey : SKey) (e : EventD) (st : Registry) : Registry :=
  let svcs := updateFirst (predSkey skey)
    (fun s => { s with events := assocUpsertE e s.events }) st.services
  { st with services := svcs }

/-- One iteration of the `registerActions` loop: `this.actions.add(node,
service, action); service.addAction(action)`. -/
def raStep (node : Node) (skey : SKey) (st : Registry) (p : String × ActionD) :
    Registry :=
  serviceAddAction skey p.2
    { st with actions := epCatalogAdd p.2.name node.id skey p.2 st.actions }

/-- `Registry.registerActions(node, service, actions)` from the source: for
each action value of the map, upsert an endpoint into the ActionCatalog and
record the action on the service. -/
def registerActions (node : Node) (skey : SKey)
    (acts : List (String × ActionD)) (st : Registry) : Registry :=
  acts.foldl (raStep node skey) st

/-- One iteration of the `registerEvents` loop. -/
def reStep (node : Node) (skey : SKey) (st : Registry) (p : String × EventD) :
    Registry :=
  serviceAddEvent skey p.2
    { st with events := epCatalogAdd p.2.name node.id skey p.2 st.events }

/-- `Registry.registerEvents(node, service, events)` from the source. -/
def registerEvents (node : Node) (skey : SKey)
    (evts : List (String × EventD)) (st : Registry) : Registry :=
  evts.foldl (reStep node skey) st

/-- `Registry.unregisterAction(node, actionName)` from the source: remove the
endpoint for (name, node id) from the ActionCatalog. -/
def unregisterAction (node : Node) (actionName : String) (st : Registry) :
    Registry :=
  { st with actions := epCatalogRemove actionName node.id st.actions }

/-- `Registry.unregisterEvent(node, eventName)` from the source. -/
def unregisterEvent (node : Node) (eventName : String) (st : Registry) :
    Registry :=
  { st with events := epCatalogRemove eventName node.id st.events }

/-- Modelled from the spec: `ServiceCatalog.remove(name, version, nodeID)`
(section 4.3), together with the removal cascade the spec requires of service
removal: a removed service is removed in full — service entry, its actions,
events and endpoints (sections 3, 4.1, 8).  The service's recorded action and
event names are unregistered from the endpoint catalogs, the entry is deleted
from the catalog, and the service is detached from the local node's owned list
when it was owned by the local node.  The catalog list is rebuilt functionally
(the catalog sources are not in the repository), so iterations that were
started over the previous list are unaffected. -/
def servicesRemove (name : SvcName) (version : SvcVer) (nodeId : String)
    (st : Registry) : Registry :=
  match svcFind name version nodeId st with
  | none => st
  | some s =>
    let acts := s.actions.foldl (fun c p => epCatalogRemove p.1 nodeId c) st.actions
    let evts := s.events.foldl (fun c p => epCatalogRemove p.1 nodeId c) st.events
    let svcs := removeFirst (predSkey (name, version, nodeId)) st.services
    let owned := if nodeId = st.localNode.id then st.localServices.erase (name, version)
      else st.localServices
    { st with actions := acts, events := evts, services := svcs, localServices := owned }

/-- `nodeID || this.broker.nodeID` from `Registry.unregisterService`: a missing
or falsy (empty-string) node id defaults to the broker's own node id. -/
def defaultNodeId (st : Registry) : Option String → String
  | none => st.brokerNodeId
  | some s => if s = "" then st.brokerNodeId else s

/-- `Registry.unregisterService(name, version, nodeID)` from the source. -/
def unregisterService (name : SvcName) (version : SvcVer)
    (nodeID : Option String) (st : Registry) : Registry :=
  servicesRemove name version (defaultNodeId st nodeID) st

/-- `Registry.unregisterServicesByNode(nodeID)` from the source; the catalog's
`removeAllByNodeID` (spec section 4.3) removes every service owned by the
node, each removed in full. -/
def unregisterServicesByNode (nodeId : String) (st : Registry) : Registry :=
  (st.services.filter (fun s => decide (s.node.id = nodeId))).foldl
    (fun st s => servicesRemove s.name s.version nodeId st) st

/-- `Registry.getActionEndpoints(actionName)` from the source. -/
def getActionEndpoints (actionName : String) (st : Registry) :
    Option (EndpointList ActionD) :=
  epCatalogGet actionName st.actions

/-- `Registry.getActionEndpointByNodeId(actionName, nodeID)` from the source:
look up the list, and inside it the endpoint of the node; absent results
propagate (the JavaScript method implicitly returns `undefined`). -/
def getActionEndpointByNodeId (actionName : String) (nodeID : String)
    (st : Registry) : Option (Endpoint ActionD) :=
  match epCatalogGet actionName st.actions with
  | some list => getEndpointByNodeID nodeID list
  | none => none

/-- `Registry.registerLocalService(svc)` from the source: add the service
under the local node, register its actions and events when present, then push
the service onto the local node's owned service list. -/
def registerLocalService (svc : ServiceDesc) (st : Registry) : Registry :=
  let key : SKey := (svc.name, svc.version, st.localNode.id)
  let st1 := servicesAdd st.localNode svc.name svc.version svc.settings st
  let st2 := match svc.actions with
    | some m => registerActions st.localNode key m st1
    | none => st1
  let st3 := match svc.events with
    | some m => registerEvents st.localNode key m st2
    | none => st2
  { st3 with localServices := st3.localServices ++ [(svc.name, svc.version)] }

/-- The loop body of the stale-action sweep with a present `actions` map: for
each previously recorded action name, `if (!svc.actions[name])
this.unregisterAction(node, name)`. -/
def sweepOldA (node : Node) (m : List (String × ActionD))
    (prev : List (String × ActionD)) (st : Registry) : Registry :=
  prev.foldl (fun st p =>
    if m.any (fun q => decide (q.1 = p.1)) then st
    else unregisterAction node p.1 st) st

/-- The loop body of the stale-event sweep with a present `events` map. -/
def sweepOldE (node : Node) (m : List (String × EventD))
    (prev : List (String × EventD)) (st : Registry) : Registry :=
  prev.foldl (fun st p =>
    if m.any (fun q => decide (q.1 = p.1)) then st
    else unregisterEvent node p.1 st) st

/-- The stale-action sweep of `Registry.registerServices`.  When the
descriptor's `actions` map is missing, reading `svc.actions[name]` throws a
`TypeError` as soon as the loop body runs once — that is, exactly when the
previously recorded map is nonempty — embedded as `Except.error`.  With a
present map the loop unregisters every previously held name the map no longer
carries. -/
def removeOldActions (node : Node) (newActs : Option (List (String × ActionD)))
    (prev : List (String × ActionD)) (st : Registry) : Except String Registry :=
  match newActs with
  | none => if prev.isEmpty then Except.ok st else Except.error "TypeError"
  | some m => Except.ok (sweepOldA node m prev st)

/-- The stale-event sweep of `Registry.registerServices`, mirroring
`removeOldActions`. -/
def removeOldEvents (node : Node) (newEvts : Option (List (String × EventD)))
    (prev : List (String × EventD)) (st : Registry) : Except String Registry :=
  match newEvts with
  | none => if prev.isEmpty then Except.ok st else Except.error "TypeError"
  | some m => Except.ok (sweepOldE node m prev st)

/-- The per-descriptor body of `Registry.registerServices`: look up the
service; on a miss create it, otherwise snapshot its recorded maps and merge
settings; then register the descriptor's actions when present, sweep stale
actions when the service pre-existed, and likewise for events. -/
def processDesc (node : Node) (svc : ServiceDesc) (st : Registry) :
    Except String Registry :=
  match svcFind svc.name svc.version node.id st with
  | none =>
    let key : SKey := (svc.name, svc.version, node.id)
    let st1 := servicesAdd node svc.name svc.version svc.settings st
    let st2 := match svc.actions with
      | some m => registerActions node key m st1
      | none => st1
    let st3 := match svc.events with
      | some m => registerEvents node key m st2
      | none => st2
    Except.ok st3
  | some service =>
    let prevA := service.actions
    let prevE := service.events
    let key : SKey := (svc.name, svc.version, node.id)
    let st1 := serviceUpdate svc.name svc.version node.id svc.settings st
    let st2 := match svc.actions with
      | some m => registerActions node key m st1
      | none => st1
    match removeOldActions node svc.actions prevA st2 with
    | Except.error e => Except.error e
    | Except.ok st3 =>
      let st4 := match svc.events with
        | some m => registerEvents node key m st3
        | none => st3
      removeOldEvents node svc.events prevE st4

/-- One step of the whole-node sweep at the end of `registerServices`:
`if (service.node != node) return;` is the object-identity comparison (`ref`),
then the service is kept when some descriptor of the incoming list carries its
(name, version), and otherwise removed via `unregisterService(service.name,
service.version, node.id)` — which, as in the source, applies the
`nodeID || this.broker.nodeID` defaulting to the passed `node.id`. -/
def phase2step (node : Node) (serviceList : List ServiceDesc) (st : Registry)
    (service : ServiceItem) : Registry :=
  if service.node.ref ≠ node.ref then st
  else if serviceList.any (fun svc =>
      decide (service.name = svc.name ∧ service.version = svc.version)) then st
  else unregisterService service.name service.version (some node.id) st

/-- The whole-node sweep of `registerServices`: scan the services recorded at
the start of the sweep and drop those owned by `node` that are absent from the
incoming list. -/
def removeStaleServices (node : Node) (serviceList : List ServiceDesc)
    (st : Registry) : Registry :=
  st.services.foldl (phase2step node serviceList) st

/-- `Registry.registerServices(node, serviceList)` from the source: process
every descriptor in order (a thrown `TypeError` aborts the whole call), then
sweep the services of `node` that the incoming list no longer carries. -/
def registerServices (node : Node) (serviceList : List ServiceDesc)
    (st : Registry) : Except String Registry :=
  match serviceList.foldlM (fun st svc => processDesc node svc st) st with
  | Except.error e => Except.error e
  | Except.ok st1 => Except.ok (removeStaleServices node serviceList st1)

/-- The catalog records an endpoint named `a` for node `nid`. -/
def CatHasEp (cat : List (EndpointList α)) (a : String) (nid : String) : Prop :=
  ∃ L ∈ cat, L.name = a ∧ ∃ ep ∈ L.endpoints, ep.nodeId = nid

instance (cat : List (EndpointList α)) (a nid : String) :
    Decidable (CatHasEp cat a nid) := by
  unfold CatHasEp; infer_instance

/-- The registry records an action endpoint named `a` for node `nid`. -/
def HasActionEp (st : Registry) (a : String) (nid : String) : Prop :=
  CatHasEp st.actions a nid

instance (st : Registry) (a nid : String) : Decidable (HasActionEp st a nid) := by
  unfold HasActionEp; infer_instance

/-- The registry records an event endpoint named `e` for node `nid`. -/
def HasEventEp (st : Registry) (e : String) (nid : String) : Prop :=
  CatHasEp st.events e nid

instance (st : Registry) (e nid : String) : Decidable (HasEventEp st e nid) := by
  unfold HasEventEp; infer_instance

/-- The registry records a service with identity (k, nid). -/
def HasService (st : Registry) (k : SvcName × SvcVer) (nid : String) : Prop :=
  ∃ s ∈ st.services, s.node.id = nid ∧ (s.name, s.version) = k

instance (st : Registry) (k : SvcName × SvcVer) (nid : String) :
    Decidable (HasService st k nid) := by
  unfold HasService; infer_instance

/-- The (name, version) keys carried by a descriptor list. -/
def descKeys (S : List ServiceDesc) : List (SvcName × SvcVer) :=
  S.map (fun d => (d.name, d.version))

/-- Descriptor `d` describes an action named `a` (a key of its actions map). -/
def DescribesA (d : ServiceDesc) (a : String) : Prop :=
  a ∈ (d.actions.getD []).map Prod.fst

instance (d : ServiceDesc) (a : String) : Decidable (DescribesA d a) := by
  unfold DescribesA; infer_instance

/-- Descriptor `d` describes an event named `e`. -/
def DescribesE (d : ServiceDesc) (e : String) : Prop :=
  e ∈ (d.events.getD []).map Prod.fst

instance (d : ServiceDesc) (e : String) : Decidable (DescribesE d e) := by
  unfold DescribesE; infer_instance

/-- Service record `s` records an action named `a` in its own map. -/
def RecordsA (s : ServiceItem) (a : String) : Prop :=
  a ∈ s.actions.map Prod.fst

instance (s : ServiceItem) (a : String) : Decidable (RecordsA s a) := by
  unfold RecordsA; infer_instance

/-- Service record `s` records an event named `e` in its own map. -/
def RecordsE (s : ServiceItem) (e : String) : Prop :=
  e ∈ s.events.map Prod.fst

instance (s : ServiceItem) (e : String) : Decidable (RecordsE s e) := by
  unfold RecordsE; infer_instance

/-! ### Generic list helpers -/

theorem updateFirst_eq_self {p : α → Bool} {f : α → α} {l : List α}
    (h : ∀ x ∈ l, p x = true → f x = x) : updateFirst p f l = l := by
  induction l with
  | nil => rfl
  | cons x xs ih =>
    by_cases hx : p x = true
    · simp [updateFirst, hx, h x (by simp) hx]
    · simp [updateFirst, hx, ih (fun y hy hpy => h y (by simp [hy]) hpy)]

theorem countP_updateFirst {p : α → Bool} {f : α → α} {q : α → Bool} {l : List α}
    (h : ∀ x, q (f x) = q x) : (updateFirst p f l).countP q = l.countP q := by
  induction l with
  | nil => rfl
  | cons x xs ih =>
    by_cases hx : p x = true
    · simp [updateFirst, hx, List.countP_cons, h]
    · simp [updateFirst, hx, List.countP_cons, ih]

theorem map_updateFirst {p : α → Bool} {g : α → α} {f : α → β} {l : List α}
    (h : ∀ x, f (g x) = f x) : (updateFirst p g l).map f = l.map f := by
  induction l with
  | nil => rfl
  | cons x xs ih =>
    by_cases hx : p x = true
    · simp [updateFirst, hx, h]
    · simp [updateFirst, hx, ih]

theorem removeFirst_sublist (p : α → Bool) (l : List α) : (removeFirst p l).Sublist l := by
  induction l with
  | nil => simp [removeFirst]
  | cons x xs ih =>
    by_cases hx : p x = true
    · simp only [removeFirst, hx, if_true]
      exact List.sublist_cons_of_sublist x (List.Sublist.refl xs)
    · simp only [removeFirst, hx, if_false]
      exact List.Sublist.cons₂ x ih

theorem mem_removeFirst_of_not {p : α → Bool} {x : α} {l : List α}
    (hx : x ∈ l) (hpx : ¬ p x = true) : x ∈ removeFirst p l := by
  induction l with
  | nil => cases hx
  | cons y ys ih =>
    by_cases hy : p y = true
    · simp only [removeFirst, hy, if_true]
      rcases List.mem_cons.mp hx with rfl | h
      · exact absurd hy hpx
      · exact h
    · simp only [removeFirst, hy, if_false]
      rcases List.mem_cons.mp hx with rfl | h
      · exact List.mem_cons_self x _
      · exact List.mem_cons_of_mem y (ih h)

theorem removeFirst_no_match {p : α → Bool} {l : List α}
    (hU : l.Pairwise (fun s t => ¬(p s = true ∧ p t = true))) :
    ∀ x ∈ removeFirst p l, ¬ p x = true := by
  induction l with
  | nil => intro x hx; cases hx
  | cons y ys ih =>
    rcases List.pairwise_cons.mp hU with ⟨hy, hys⟩
    by_cases hpy : p y = true
    · simp only [removeFirst, hpy, if_true]
      intro x hx hpx
      exact hy x hx ⟨hpy, hpx⟩
    · simp only [removeFirst, hpy, if_false]
      intro x hx
      rcases List.mem_cons.mp hx with rfl | h
      · exact hpy
      · exact ih hys x h

theorem filterMap_eq_self_of {f : α → Option α} {l : List α}
    (h : ∀ x ∈ l, f x = some x) : l.filterMap f = l := by
  induction l with
  | nil => rfl
  | cons x xs ih =>
    rw [List.filterMap_cons, h x (List.mem_cons_self x xs)]
    rw [ih (fun y hy => h y (List.mem_cons_of_mem x hy))]

theorem foldl_fixed_of {f : β → α → β} {l : List α} {b : β}
    (h : ∀ x ∈ l, f b x = b) : l.foldl f b = b := by
  induction l with
  | nil => rfl
  | cons x xs ih =>
    rw [List.foldl_cons, h x (List.mem_cons_self x xs)]
    exact ih (fun y hy => h y (List.mem_cons_of_mem x hy))

/-! ### Effect of the endpoint-catalog operations on recorded endpoints -/

theorem nodeIds_epListUpsert {nodeId : String} {skey : SKey} {a : α}
    {eps : List (Endpoint α)} (h : eps.any (fun ep => decide (ep.nodeId = nodeId)) = true) :
    (epListUpsert nodeId skey a eps).map (fun ep => ep.nodeId) =
      eps.map (fun ep => ep.nodeId) := by
  unfold epListUpsert
  rw [if_pos h, List.map_map]
  apply List.map_congr_left
  intro ep _
  by_cases hid : ep.nodeId = nodeId
  · rw [Function.comp_apply, if_pos hid, hid]
  · rw [Function.comp_apply, if_neg hid]

theorem mem_nodeIds_epListUpsert {nodeId m : String} {skey : SKey} {a : α}
    {eps : List (Endpoint α)} :
    (∃ ep ∈ epListUpsert nodeId skey a eps, ep.nodeId = m) ↔
      (m = nodeId ∨ ∃ ep ∈ eps, ep.nodeId = m) := by
  have hmem : ∀ (l : List (Endpoint α)),
      (∃ ep ∈ l, ep.nodeId = m) ↔ m ∈ l.map (fun ep => ep.nodeId) := by
    intro l
    constructor
    · rintro ⟨ep, hep, hid⟩; exact List.mem_map.mpr ⟨ep, hep, hid⟩
    · intro hm
      rcases List.mem_map.mp hm with ⟨ep, hep, hid⟩
      exact ⟨ep, hep, hid⟩
  by_cases h : eps.any (fun ep => decide (ep.nodeId = nodeId)) = true
  · rw [hmem, nodeIds_epListUpsert h, ← hmem]
    rcases List.any_eq_true.mp h with ⟨ep0, hep0, hid0⟩
    rw [decide_eq_true_eq] at hid0
    constructor
    · exact Or.inr
    · rintro (hm | hex)
      · exact ⟨ep0, hep0, by rw [hid0, hm]⟩
      · exact hex
  · unfold epListUpsert
    rw [if_neg h]
    constructor
    · rintro ⟨ep, hep, hid⟩
      rcases List.mem_append.mp hep with h1 | h1
      · exact Or.inr ⟨ep, h1, hid⟩
      · rcases List.mem_singleton.mp h1 with rfl
        exact Or.inl hid.symm
    · rintro (hm | ⟨ep, hep, hid⟩)
      · exact ⟨⟨nodeId, skey, a, true⟩,
          List.mem_append.mpr (Or.inr (List.mem_singleton.mpr rfl)), hm.symm⟩
      · exact ⟨ep, List.mem_append.mpr (Or.inl hep), hid⟩

theorem catHasEp_epCatalogAdd {name nodeId : String} {skey : SKey} {a : α}
    {cat : List (EndpointList α)} {b m : String} :
    CatHasEp (epCatalogAdd name nodeId skey a cat) b m ↔
      ((b = name ∧ m = nodeId) ∨ CatHasEp cat b m) := by
  unfold epCatalogAdd CatHasEp
  by_cases h : cat.any (fun L => decide (L.name = name)) = true
  · rw [if_pos h]
    rcases List.any_eq_true.mp h with ⟨L0, hL0, hn0⟩
    rw [decide_eq_true_eq] at hn0
    constructor
    · rintro ⟨L, hL, hname, hep⟩
      rcases List.mem_map.mp hL with ⟨L1, hL1, rfl⟩
      by_cases h1 : L1.name = name
      · rw [if_pos h1] at hname hep
        simp only at hname hep
        rcases mem_nodeIds_epListUpsert.mp hep with rfl | hex
        · exact Or.inl ⟨by rw [← hname, h1], rfl⟩
        · exact Or.inr ⟨L1, hL1, hname, hex⟩
      · rw [if_neg h1] at hname hep
        exact Or.inr ⟨L1, hL1, hname, hep⟩
    · rintro (⟨hb, hm⟩ | ⟨L, hL, hname, hep⟩)
      · refine ⟨⟨L0.name, epListUpsert nodeId skey a L0.endpoints⟩, ?_, by rw [hn0, hb], ?_⟩
        · rw [List.mem_map]
          exact ⟨L0, hL0, by rw [if_pos hn0]⟩
        · exact mem_nodeIds_epListUpsert.mpr (Or.inl hm)
      · by_cases h1 : L.name = name
        · refine ⟨⟨L.name, epListUpsert nodeId skey a L.endpoints⟩, ?_, hname, ?_⟩
          · rw [List.mem_map]
            exact ⟨L, hL, by rw [if_pos h1]⟩
          · exact mem_nodeIds_epListUpsert.mpr (Or.inr hep)
        · refine ⟨L, ?_, hname, hep⟩
          rw [List.mem_map]
          exact ⟨L, hL, by rw [if_neg h1]⟩
  · rw [if_neg h]
    constructor
    · rintro ⟨L, hL, hname, hep⟩
      rcases List.mem_append.mp hL with hL | hL
      · exact Or.inr ⟨L, hL, hname, hep⟩
      · rcases List.mem_singleton.mp hL with rfl
        rcases hep with ⟨ep, hep, hid⟩
        rcases List.mem_singleton.mp hep with rfl
        exact Or.inl ⟨hname.symm, hid.symm⟩
    · rintro (⟨hb, hm⟩ | ⟨L, hL, hname, hep⟩)
      · refine ⟨⟨name, [⟨nodeId, skey, a, true⟩]⟩, ?_, hb.symm,
          ⟨nodeId, skey, a, true⟩, List.mem_singleton.mpr rfl, hm.symm⟩
        exact List.mem_append.mpr (Or.inr (List.mem_singleton.mpr rfl))
      · exact ⟨L, List.mem_append.mpr (Or.inl hL), hname, hep⟩

theorem catHasEp_epCatalogRemove {name nodeId : String}
    {cat : List (EndpointList α)} {b m : String} :
    CatHasEp (epCatalogRemove name nodeId cat) b m ↔
      (CatHasEp cat b m ∧ ¬(b = name ∧ m = nodeId)) := by
  unfold epCatalogRemove CatHasEp
  constructor
  · rintro ⟨L, hL, hname, ep, hep, hid⟩
    rcases List.mem_filterMap.mp hL with ⟨L1, hL1, hf⟩
    by_cases h1 : L1.name = name
    · rw [if_pos h1] at hf
      simp only at hf
      by_cases hemp : (L1.endpoints.filter (fun ep => decide (ep.nodeId ≠ nodeId))).isEmpty = true
      · rw [if_pos hemp] at hf; cases hf
      · rw [if_neg hemp] at hf
        rcases Option.some.injEq _ _ ▸ hf with rfl
        have hname1 : L1.name = b := hname
        rcases List.mem_filter.mp hep with ⟨hep1, hne⟩
        rw [decide_eq_true_eq] at hne
        refine ⟨⟨L1, hL1, hname1, ep, hep1, hid⟩, ?_⟩
        rintro ⟨rfl, rfl⟩
        exact hne hid
    · rw [if_neg h1] at hf
      rcases Option.some.injEq _ _ ▸ hf with rfl
      refine ⟨⟨L1, hL1, hname, ep, hep, hid⟩, ?_⟩
      rintro ⟨rfl, rfl⟩
      exact h1 (hname ▸ rfl)
  · rintro ⟨⟨L, hL, hname, ep, hep, hid⟩, hnot⟩
    by_cases h1 : L.name = name
    · have hne : ep.nodeId ≠ nodeId := by
        intro hcontra
        exact hnot ⟨by rw [← hname, h1], by rw [← hid, hcontra]⟩
      have hepf : ep ∈ L.endpoints.filter (fun ep => decide (ep.nodeId ≠ nodeId)) :=
        List.mem_filter.mpr ⟨hep, decide_eq_true hne⟩
      have hemp : (L.endpoints.filter (fun ep => decide (ep.nodeId ≠ nodeId))).isEmpty = false := by
        rcases (L.endpoints.filter (fun ep => decide (ep.nodeId ≠ nodeId))).eq_nil_or_concat with hnil | _
        · rw [hnil] at hepf; cases hepf
        · cases hfil : (L.endpoints.filter (fun ep => decide (ep.nodeId ≠ nodeId))) with
          | nil => rw [hfil] at hepf; cases hepf
          | cons x xs => simp
      refine ⟨⟨L.name, L.endpoints.filter (fun ep => decide (ep.nodeId ≠ nodeId))⟩, ?_, hname, ep, hepf, hid⟩
      apply List.mem_filterMap.mpr
      refine ⟨L, hL, ?_⟩
      rw [if_pos h1, if_neg (by rw [hemp]; exact Bool.false_ne_true)]
    · refine ⟨L, ?_, hname, ep, hep, hid⟩
      apply List.mem_filterMap.mpr
      exact ⟨L, hL, by rw [if_neg h1]⟩

theorem epCatalogRemove_eq_self {name nid : String} {cat : List (EndpointList α)}
    (h : ∀ L ∈ cat, L.name = name →
      (∀ ep ∈ L.endpoints, ep.nodeId ≠ nid) ∧ L.endpoints ≠ []) :
    epCatalogRemove name nid cat = cat := by
  rw [epCatalogRemove]
  apply filterMap_eq_self_of
  intro L hL
  by_cases h1 : L.name = name
  · rcases h L hL h1 with ⟨hall, hne⟩
    have hfil : L.endpoints.filter (fun ep => decide (ep.nodeId ≠ nid)) = L.endpoints :=
      List.filter_eq_self.mpr (fun ep hep => decide_eq_true (hall ep hep))
    rw [if_pos h1]
    simp only [hfil]
    rw [if_neg (by simp [hne])]
  · rw [if_neg h1]

/-! ### Frame lemmas for the registration operations -/

theorem registerActions_localNode (node : Node) (skey : SKey)
    (acts : List (String × ActionD)) (st : Registry) :
    (registerActions node skey acts st).localNode = st.localNode := by
  induction acts generalizing st with
  | nil => rfl
  | cons p ps ih => rw [registerActions, List.foldl_cons, ← registerActions]; exact ih _

theorem registerActions_localServices (node : Node) (skey : SKey)
    (acts : List (String × ActionD)) (st : Registry) :
    (registerActions node skey acts st).localServices = st.localServices := by
  induction acts generalizing st with
  | nil => rfl
  | cons p ps ih => rw [registerActions, List.foldl_cons, ← registerActions]; exact ih _

theorem registerActions_brokerNodeId (node : Node) (skey : SKey)
    (acts : List (String × ActionD)) (st : Registry) :
    (registerActions node skey acts st).brokerNodeId = st.brokerNodeId := by
  induction acts generalizing st with
  | nil => rfl
  | cons p ps ih => rw [registerActions, List.foldl_cons, ← registerActions]; exact ih _

theorem registerActions_events (node : Node) (skey : SKey)
    (acts : List (String × ActionD)) (st : Registry) :
    (registerActions node skey acts st).events = st.events := by
  induction acts generalizing st with
  | nil => rfl
  | cons p ps ih => rw [registerActions, List.foldl_cons, ← registerActions]; exact ih _

theorem registerEvents_localNode (node : Node) (skey : SKey)
    (evts : List (String × EventD)) (st : Registry) :
    (registerEvents node skey evts st).localNode = st.localNode := by
  induction evts generalizing st with
  | nil => rfl
  | cons p ps ih => rw [registerEvents, List.foldl_cons, ← registerEvents]; exact ih _

theorem registerEvents_localServices (node : Node) (skey : SKey)
    (evts : List (String × EventD)) (st : Registry) :
    (registerEvents node skey evts st).localServices = st.localServices := by
  induction evts generalizing st with
  | nil => rfl
  | cons p ps ih => rw [registerEvents, List.foldl_cons, ← registerEvents]; exact ih _

theorem registerEvents_brokerNodeId (node : Node) (skey : SKey)
    (evts : List (String × EventD)) (st : Registry) :
    (registerEvents node skey evts st).brokerNodeId = st.brokerNodeId := by
  induction evts generalizing st with
  | nil => rfl
  | cons p ps ih => rw [registerEvents, List.foldl_cons, ← registerEvents]; exact ih _

theorem registerEvents_actions (node : Node) (skey : SKey)
    (evts : List (String × EventD)) (st : Registry) :
    (registerEvents node skey evts st).actions = st.actions := by
  induction evts generalizing st with
  | nil => rfl
  | cons p ps ih => rw [registerEvents, List.foldl_cons, ← registerEvents]; exact ih _

theorem countP_services_registerActions (q : ServiceItem → Bool) (node : Node)
    (skey : SKey) (acts : List (String × ActionD)) (st : Registry)
    (hq : ∀ (s : ServiceItem) (m : List (String × ActionD)),
      q { s with actions := m } = q s) :
    (registerActions node skey acts st).services.countP q = st.services.countP q := by
  induction acts generalizing st with
  | nil => rfl
  | cons p ps ih =>
    rw [registerActions, List.foldl_cons, ← registerActions, ih]
    exact countP_updateFirst (fun s => hq s _)

theorem countP_services_registerEvents (q : ServiceItem → Bool) (node : Node)
    (skey : SKey) (evts : List (String × EventD)) (st : Registry)
    (hq : ∀ (s : ServiceItem) (m : List (String × EventD)),
      q { s with events := m } = q s) :
    (registerEvents node skey evts st).services.countP q = st.services.countP q := by
  induction evts generalizing st with
  | nil => rfl
  | cons p ps ih =>
    rw [registerEvents, List.foldl_cons, ← registerEvents, ih]
    exact countP_updateFirst (fun s => hq s _)

/-! ### Shared concrete example states used by the witnesses -/

def exNode : Node := ⟨1, "n1"⟩

def exService : ServiceItem :=
  ⟨exNode, some "math", some 1, none, [("add", ⟨"add", 0⟩)], []⟩

def exSt : Registry :=
  { brokerNodeId := "local", localNode := ⟨0, "local"⟩, localServices := [],
    services := [exService],
    actions := [⟨"add", [⟨"n1", (some "math", some 1, "n1"), ⟨"add", 0⟩, true⟩]⟩],
    events := [] }

def exLocalNode : Node := ⟨0, "local"⟩

def exStLocal : Registry :=
  { brokerNodeId := "local", localNode := exLocalNode,
    localServices := [(some "svc", some 1)],
    services := [⟨exLocalNode, some "svc", some 1, none, [], []⟩],
    actions := [], events := [] }

/-! ### Claim C4 -/

/-- Claim C4: `getActionEndpoints` and `getActionEndpointByNodeId` never fail:
an unknown action name yields an absent EndpointList and an absent endpoint,
and a known name with no endpoint for the requested node yields an absent
endpoint.  Both embeddings are total functions into `Option`, so no lookup
can raise. -/
theorem lookup_miss_returns_absent (st : Registry) (u k nid : String)
    (hu : ∀ L ∈ st.actions, L.name ≠ u)
    (hk : ∀ L ∈ st.actions, L.name = k → ∀ ep ∈ L.endpoints, ep.nodeId ≠ nid) :
    getActionEndpoints u st = none ∧
    getActionEndpointByNodeId u nid st = none ∧
    getActionEndpointByNodeId k nid st = none := by
  have hget : epCatalogGet u st.actions = none := by
    rw [epCatalogGet, List.find?_eq_none]
    intro L hL
    simp only [decide_eq_true_eq]
    exact hu L hL
  refine ⟨hget, ?_, ?_⟩
  · simp only [getActionEndpointByNodeId, hget]
  · cases hfind : epCatalogGet k st.actions with
    | none => simp only [getActionEndpointByNodeId, hfind]
    | some L =>
      have hmemL : L ∈ st.actions := List.mem_of_find?_eq_some hfind
      have hnameL : L.name = k := by
        have h := List.find?_some hfind
        rwa [decide_eq_true_eq] at h
      have hnone : getEndpointByNodeID nid L = none := by
        rw [getEndpointByNodeID, List.find?_eq_none]
        intro ep hep
        simp only [decide_eq_true_eq]
        exact hk L hmemL hnameL ep hep
      simp only [getActionEndpointByNodeId, hfind, hnone]

/-- Witness for claim C4 at a concrete registry. -/
theorem lookup_miss_returns_absent_witness :
    getActionEndpoints "zzz" exSt = none ∧
    getActionEndpointByNodeId "zzz" "nX" exSt = none ∧
    getActionEndpointByNodeId "add" "nX" exSt = none :=
  lookup_miss_returns_absent exSt "zzz" "add" "nX" (by decide) (by decide)

/-! ### Claim C5 -/

/-- Claim C5: each of the four explicit removal entry points is a no-op that
raises nothing and leaves the registry state unchanged when its target does
not exist (the state is well-formed in that no dangling empty EndpointList is
present for the probed action/event name). -/
theorem unregister_missing_target_noop (st : Registry) (node : Node)
    (name : SvcName) (version : SvcVer) (nodeID : Option String)
    (nid aname ename : String)
    (h1 : svcFind name version (defaultNodeId st nodeID) st = none)
    (h2 : ∀ s ∈ st.services, s.node.id ≠ nid)
    (h3 : ∀ L ∈ st.actions, L.name = aname →
      (∀ ep ∈ L.endpoints, ep.nodeId ≠ node.id) ∧ L.endpoints ≠ [])
    (h4 : ∀ L ∈ st.events, L.name = ename →
      (∀ ep ∈ L.endpoints, ep.nodeId ≠ node.id) ∧ L.endpoints ≠ []) :
    unregisterService name version nodeID st = st ∧
    unregisterServicesByNode nid st = st ∧
    unregisterAction node aname st = st ∧
    unregisterEvent node ename st = st := by
  refine ⟨?_, ?_, ?_, ?_⟩
  · simp only [unregisterService, servicesRemove, h1]
  · rw [unregisterServicesByNode]
    have hfil : st.services.filter (fun s => decide (s.node.id = nid)) = [] := by
      rw [List.filter_eq_nil_iff]
      intro s hs
      simp only [decide_eq_true_eq]
      exact h2 s hs
    rw [hfil, List.foldl_nil]
  · rw [unregisterAction, epCatalogRemove_eq_self h3]
  · rw [unregisterEvent, epCatalogRemove_eq_self h4]

/-- Witness for claim C5 at a concrete registry. -/
theorem unregister_missing_target_noop_witness :
    unregisterService (some "nope") none none exSt = exSt ∧
    unregisterServicesByNode "nX" exSt = exSt ∧
    unregisterAction ⟨5, "nX"⟩ "add" exSt = exSt ∧
    unregisterEvent ⟨5, "nX"⟩ "e" exSt = exSt :=
  unregister_missing_target_noop exSt ⟨5, "nX"⟩ (some "nope") none none "nX" "add" "e"
    (by decide) (by decide) (by decide) (by decide)

/-! ### Claim C7 -/

/-- Number of services recorded in the catalog with the given (name, version)
key under the given node id. -/
def countSvcKey (st : Registry) (k : SvcName × SvcVer) (nid : String) : Nat :=
  st.services.countP (fun s => decide (s.name = k.1 ∧ s.version = k.2 ∧ s.node.id = nid))

/-- Number of entries for the given (name, version) in the local node's owned
service list. -/
def countOwned (st : Registry) (k : SvcName × SvcVer) : Nat :=
  st.localServices.countP (fun p => decide (p = k))

theorem registerLocalService_localNode (svc : ServiceDesc) (st : Registry) :
    (registerLocalService svc st).localNode = st.localNode := by
  rw [registerLocalService]
  cases svc.actions <;> cases svc.events <;>
    simp only [registerActions_localNode, registerEvents_localNode, servicesAdd]

theorem registerLocalService_countSvcKey (svc : ServiceDesc) (st : Registry) :
    countSvcKey (registerLocalService svc st) (svc.name, svc.version) st.localNode.id =
      countSvcKey st (svc.name, svc.version) st.localNode.id + 1 := by
  rw [registerLocalService]
  rcases hA : svc.actions with _ | mA <;> rcases hE : svc.events with _ | mE <;>
    simp only [countSvcKey] <;>
    [skip;
     rw [countP_services_registerEvents (fun s => decide (s.name = (svc.name, svc.version).1 ∧
       s.version = (svc.name, svc.version).2 ∧ s.node.id = st.localNode.id)) _ _ _ _
       (fun s m => rfl)];
     rw [countP_services_registerActions (fun s => decide (s.name = (svc.name, svc.version).1 ∧
       s.version = (svc.name, svc.version).2 ∧ s.node.id = st.localNode.id)) _ _ _ _
       (fun s m => rfl)];
     rw [countP_services_registerEvents (fun s => decide (s.name = (svc.name, svc.version).1 ∧
       s.version = (svc.name, svc.version).2 ∧ s.node.id = st.localNode.id)) _ _ _ _
       (fun s m => rfl),
       countP_services_registerActions (fun s => decide (s.name = (svc.name, svc.version).1 ∧
       s.version = (svc.name, svc.version).2 ∧ s.node.id = st.localNode.id)) _ _ _ _
       (fun s m => rfl)]] <;>
    simp [servicesAdd, List.countP_append]

theorem registerLocalService_countOwned (svc : ServiceDesc) (st : Registry) :
    countOwned (registerLocalService svc st) (svc.name, svc.version) =
      countOwned st (svc.name, svc.version) + 1 := by
  rw [registerLocalService]
  cases hA : svc.actions <;> cases hE : svc.events <;>
    simp [countOwned, registerActions_localServices, registerEvents_localServices,
      servicesAdd, List.countP_append]

/-- Claim C7: `registerLocalService` is not idempotent — registering the same
descriptor twice leaves two service entries with the same (name, version)
under the local node in the service catalog, and two entries in the local
node's owned service list. -/
theorem registerLocalService_not_idempotent (st : Registry) (svc : ServiceDesc) :
    countSvcKey (registerLocalService svc (registerLocalService svc st))
        (svc.name, svc.version) st.localNode.id =
      countSvcKey st (svc.name, svc.version) st.localNode.id + 2 ∧
    countOwned (registerLocalService svc (registerLocalService svc st))
        (svc.name, svc.version) =
      countOwned st (svc.name, svc.version) + 2 := by
  constructor
  · have h1 := registerLocalService_countSvcKey svc st
    have h2 := registerLocalService_countSvcKey svc (registerLocalService svc st)
    rw [registerLocalService_localNode] at h2
    omega
  · have h1 := registerLocalService_countOwned svc st
    have h2 := registerLocalService_countOwned svc (registerLocalService svc st)
    omega

/-! ### Claim C10 -/

theorem hasService_iff (st : Registry) (name : SvcName) (version : SvcVer)
    (nid : String) :
    HasService st (name, version) nid ↔
      ∃ s ∈ st.services, s.name = name ∧ s.version = version ∧ s.node.id = nid := by
  unfold HasService
  constructor
  · rintro ⟨s, hs, hid, hk⟩
    rcases Prod.mk.injEq _ _ _ _ ▸ hk with ⟨h1, h2⟩
    exact ⟨s, hs, h1, h2, hid⟩
  · rintro ⟨s, hs, h1, h2, h3⟩
    exact ⟨s, hs, h3, by rw [h1, h2]⟩

/-- Claim C10: `unregisterService` with an omitted (or falsy empty-string)
node id targets the broker's own node id — equal to the local node's id — and
removes the service recorded under it. -/
theorem unregisterService_defaults_to_local (st : Registry) (name : SvcName)
    (version : SvcVer)
    (hloc : st.localNode.id = st.brokerNodeId)
    (hU : st.services.Pairwise (fun s t =>
      ¬((s.name = name ∧ s.version = version ∧ s.node.id = st.brokerNodeId) ∧
        (t.name = name ∧ t.version = version ∧ t.node.id = st.brokerNodeId)))) :
    unregisterService name version none st =
      servicesRemove name version st.brokerNodeId st ∧
    unregisterService name version (some "") st =
      servicesRemove name version st.brokerNodeId st ∧
    ¬ HasService (unregisterService name version none st) (name, version)
        st.localNode.id := by
  have hdef : defaultNodeId st none = st.brokerNodeId := rfl
  have hdef2 : defaultNodeId st (some "") = st.brokerNodeId := by
    simp [defaultNodeId]
  refine ⟨by rw [unregisterService, hdef], by rw [unregisterService, hdef2], ?_⟩
  rw [unregisterService, hdef, hloc]
  rw [hasService_iff]
  rintro ⟨s, hs, h1, h2, h3⟩
  cases hfind : svcFind name version st.brokerNodeId st with
  | none =>
    rw [servicesRemove, hfind] at hs
    have hnone := List.find?_eq_none.mp hfind s hs
    simp only [predSkey, decide_eq_true_eq] at hnone
    exact hnone ⟨h1, h2, h3⟩
  | some s0 =>
    have hsvcs : (servicesRemove name version st.brokerNodeId st).services =
        removeFirst (predSkey (name, version, st.brokerNodeId)) st.services := by
      rw [servicesRemove, hfind]
    rw [hsvcs] at hs
    have hU2 : st.services.Pairwise (fun s t =>
        ¬(predSkey (name, version, st.brokerNodeId) s = true ∧
          predSkey (name, version, st.brokerNodeId) t = true)) := by
      apply hU.imp
      intro a b hab
      simpa only [predSkey, decide_eq_true_eq] using hab
    have := removeFirst_no_match hU2 s hs
    simp only [predSkey, decide_eq_true_eq] at this
    exact this ⟨h1, h2, h3⟩

/-- Witness for claim C10 at a concrete registry holding one local service. -/
theorem unregisterService_defaults_to_local_witness :
    unregisterService (some "svc") (some 1) none exStLocal =
      servicesRemove (some "svc") (some 1) exStLocal.brokerNodeId exStLocal ∧
    unregisterService (some "svc") (some 1) (some "") exStLocal =
      servicesRemove (some "svc") (some 1) exStLocal.brokerNodeId exStLocal ∧
    ¬ HasService (unregisterService (some "svc") (some 1) none exStLocal)
        (some "svc", some 1) exStLocal.localNode.id :=
  unregisterService_defaults_to_local exStLocal (some "svc") (some 1)
    (by decide) (by decide)

/-! ### Claim C9 -/

/-- Claim C9: the whole-node sweep of `registerServices` considers a recorded
service for removal only when its stored node reference is the very same
object (`ref`) as the `node` argument; a recorded service whose stored node is
a different object — even one carrying the same node id — is left in place by
the sweep.  `hU` states that the service identity key is unambiguous in the
catalog and `hRefId` that an object reference determines the node object. -/
theorem staleSweep_requires_object_identity (st : Registry) (node : Node)
    (S : List ServiceDesc) (s : ServiceItem)
    (hs : s ∈ st.services)
    (hid : s.node.id = node.id)
    (href : s.node.ref ≠ node.ref)
    (hU : ∀ t ∈ st.services, t.name = s.name → t.version = s.version →
      t.node.id = s.node.id → t = s)
    (hRefId : ∀ t ∈ st.services, t.node.ref = node.ref → t.node = node) :
    s ∈ (removeStaleServices node S st).services := by
  have key : ∀ (l : List ServiceItem) (acc : Registry),
      (∀ u ∈ l, u ∈ st.services) → s ∈ acc.services →
      s ∈ (l.foldl (phase2step node S) acc).services := by
    intro l
    induction l with
    | nil => intro acc _ hacc; exact hacc
    | cons u us ih =>
      intro acc hl hacc
      rw [List.foldl_cons]
      apply ih _ (fun t ht => hl t (List.mem_cons_of_mem u ht))
      rw [phase2step]
      by_cases h1 : u.node.ref ≠ node.ref
      · rw [if_pos h1]; exact hacc
      · rw [if_neg h1]
        by_cases h2 : (S.any fun svc =>
            decide (u.name = svc.name ∧ u.version = svc.version)) = true
        · rw [if_pos h2]; exact hacc
        · rw [if_neg h2]
          rw [unregisterService, servicesRemove]
          cases hf : svcFind u.name u.version
              (defaultNodeId acc (some node.id)) acc with
          | none => exact hacc
          | some s0 =>
            show s ∈ removeFirst _ acc.services
            apply mem_removeFirst_of_not hacc
            simp only [predSkey, decide_eq_true_eq]
            rintro ⟨e1, e2, e3⟩
            have hu : u ∈ st.services := hl u (List.mem_cons_self u us)
            have huref : u.node.ref = node.ref := not_not.mp h1
            have hunode : u.node = node := hRefId u hu huref
            have huid : u.node.id = s.node.id := by rw [hunode, hid]
            have hus : u = s := hU u hu e1.symm e2.symm huid
            rw [hus] at huref
            exact href huref
  exact key st.services st (fun u hu => hu) hs

/-- Witness for claim C9: a service whose stored node carries the id of the
reconciling node but is a different object survives the sweep of an empty
snapshot. -/
theorem staleSweep_requires_object_identity_witness :
    exService ∈ (removeStaleServices ⟨2, "n1"⟩ [] exSt).services :=
  staleSweep_requires_object_identity exSt ⟨2, "n1"⟩ [] exService
    (by decide) (by decide) (by decide) (by decide) (by decide)

/-! ### Claim C2 (code bug) -/

/-- The registry state reached after a first full snapshot from `exNode` in
which service math@1 carries action `add` — the action is recorded both on
the service and as an endpoint. -/
def c2Desc : ServiceDesc := ⟨some "math", some 1, none, none, none⟩

/-- Claim C2 (code bug): a snapshot descriptor whose `actions` map is missing
is NOT treated as an empty map for an existing service that previously
recorded actions: the stale-action sweep reads `svc.actions[name]` on an
`undefined` map and the reconciliation aborts with a `TypeError` instead of
removing the previously held names. -/
theorem missing_actions_map_raises :
    registerServices exNode [c2Desc] exSt = Except.error "TypeError" := by rfl

/-! ### Claim C3 (code bug) -/

def exEmpty : Registry :=
  { brokerNodeId := "local", localNode := ⟨0, "local"⟩, localServices := [],
    services := [], actions := [], events := [] }

def goodDesc : ServiceDesc :=
  ⟨some "math", some 1, none, some [("add", ⟨"add", 0⟩)], some []⟩

def badDesc : ServiceDesc :=
  ⟨none, some 2, none, some [("sub", ⟨"sub", 0⟩)], some []⟩

/-- The state the code actually reaches on a batch containing a malformed
descriptor (missing `name`). -/
def c3State : Registry :=
  (registerServices exNode [goodDesc, badDesc] exEmpty).toOption.getD exEmpty

/-- Claim C3 (code bug): a malformed descriptor (missing required `name`) in a
reconciliation batch is not rejected: the batch completes, but the malformed
descriptor is registered as a service keyed by the `undefined` name — with its
`sub` endpoint — so the resulting state is not the state obtained when the bad
descriptor is omitted. -/
theorem malformed_descriptor_not_rejected :
    registerServices exNode [goodDesc, badDesc] exEmpty = Except.ok c3State ∧
    HasService c3State (none, some 2) "n1" ∧
    HasActionEp c3State "sub" "n1" ∧
    (registerServices exNode [goodDesc] exEmpty).toOption ≠ some c3State := by
  refine ⟨rfl, by decide, by decide, by decide⟩

/-! ### Claim C6: settledness machinery for upsert idempotence -/

/-- Endpoints for the given node inside this endpoint list are settled at
exactly the endpoint produced by re-registering action `a`. -/
def EpsSettled (nid : String) (skey : SKey) (a : ActionD)
    (eps : List (Endpoint ActionD)) : Prop :=
  (eps.any (fun ep => decide (ep.nodeId = nid)) = true) ∧
  ∀ ep ∈ eps, ep.nodeId = nid → ep = ⟨nid, skey, a, true⟩

/-- The action catalog is settled for `a`: a list named `a.name` exists and
every endpoint it holds for the node equals the freshly produced endpoint. -/
def CatSettled (cat : List (EndpointList ActionD)) (nid : String) (skey : SKey)
    (a : ActionD) : Prop :=
  (cat.any (fun L => decide (L.name = a.name)) = true) ∧
  ∀ L ∈ cat, L.name = a.name → EpsSettled nid skey a L.endpoints

/-- The service's own action map is settled for `a`. -/
def EntrySettled (m : List (String × ActionD)) (a : ActionD) : Prop :=
  (m.any (fun p => decide (p.1 = a.name)) = true) ∧
  ∀ q ∈ m, q.1 = a.name → q = (a.name, a)

theorem epsSettled_epListUpsert (nid : String) (skey : SKey) (a : ActionD)
    (eps : List (Endpoint ActionD)) : EpsSettled nid skey a (epListUpsert nid skey a eps) := by
  rw [epListUpsert]
  by_cases h : eps.any (fun ep => decide (ep.nodeId = nid)) = true
  · rw [if_pos h]
    constructor
    · rcases List.any_eq_true.mp h with ⟨ep0, hep0, hid0⟩
      rw [decide_eq_true_eq] at hid0
      apply List.any_eq_true.mpr
      refine ⟨⟨nid, skey, a, true⟩, ?_, by simp⟩
      exact List.mem_map.mpr ⟨ep0, hep0, by rw [if_pos hid0]⟩
    · intro ep hep hid
      rcases List.mem_map.mp hep with ⟨ep1, _, rfl⟩
      by_cases h1 : ep1.nodeId = nid
      · rw [if_pos h1]
      · rw [if_neg h1] at hid ⊢
        exact absurd hid h1
  · rw [if_neg h]
    constructor
    · apply List.any_eq_true.mpr
      exact ⟨⟨nid, skey, a, true⟩, List.mem_append.mpr (Or.inr (List.mem_singleton.mpr rfl)), by simp⟩
    · intro ep hep hid
      rcases List.mem_append.mp hep with h1 | h1
      · exfalso
        have hany : eps.any (fun ep => decide (ep.nodeId = nid)) = true :=
          List.any_eq_true.mpr ⟨ep, h1, decide_eq_true hid⟩
        exact h hany
      · exact List.mem_singleton.mp h1

theorem epListUpsert_eq_self (nid : String) (skey : SKey) (a : ActionD)
    {eps : List (Endpoint ActionD)} (h : EpsSettled nid skey a eps) :
    epListUpsert nid skey a eps = eps := by
  rw [epListUpsert, if_pos h.1]
  have : ∀ ep ∈ eps, (if ep.nodeId = nid then (⟨nid, skey, a, true⟩ : Endpoint ActionD) else ep) = ep := by
    intro ep hep
    by_cases h1 : ep.nodeId = nid
    · rw [if_pos h1, h.2 ep hep h1]
    · rw [if_neg h1]
  rw [List.map_congr_left this]
  exact List.map_id _

theorem catSettled_epCatalogAdd (cat : List (EndpointList ActionD)) (nid : String)
    (skey : SKey) (a : ActionD) :
    CatSettled (epCatalogAdd a.name nid skey a cat) nid skey a := by
  rw [epCatalogAdd]
  by_cases h : cat.any (fun L => decide (L.name = a.name)) = true
  · rw [if_pos h]
    constructor
    · rcases List.any_eq_true.mp h with ⟨L0, hL0, hn0⟩
      rw [decide_eq_true_eq] at hn0
      apply List.any_eq_true.mpr
      refine ⟨⟨L0.name, epListUpsert nid skey a L0.endpoints⟩, ?_, by simp [hn0]⟩
      exact List.mem_map.mpr ⟨L0, hL0, by rw [if_pos hn0]⟩
    · intro L hL hname
      rcases List.mem_map.mp hL with ⟨L1, _, rfl⟩
      by_cases h1 : L1.name = a.name
      · rw [if_pos h1]
        exact epsSettled_epListUpsert nid skey a L1.endpoints
      · rw [if_neg h1] at hname ⊢
        exact absurd hname h1
  · rw [if_neg h]
    constructor
    · apply List.any_eq_true.mpr
      exact ⟨⟨a.name, [⟨nid, skey, a, true⟩]⟩,
        List.mem_append.mpr (Or.inr (List.mem_singleton.mpr rfl)), by simp⟩
    · intro L hL hname
      rcases List.mem_append.mp hL with h1 | h1
      · exfalso
        exact h (List.any_eq_true.mpr ⟨L, h1, decide_eq_true hname⟩)
      · rcases List.mem_singleton.mp h1 with rfl
        refine ⟨by simp, ?_⟩
        intro ep hep _
        exact List.mem_singleton.mp hep

theorem catSettled_epCatalogAdd_other (cat : List (EndpointList ActionD))
    {nid nid2 : String} {skey skey2 : SKey} {a b : ActionD}
    (hne : a.name ≠ b.name) (h : CatSettled cat nid skey a) :
    CatSettled (epCatalogAdd b.name nid2 skey2 b cat) nid skey a := by
  rw [epCatalogAdd]
  by_cases hb : cat.any (fun L => decide (L.name = b.name)) = true
  · rw [if_pos hb]
    constructor
    · rcases List.any_eq_true.mp h.1 with ⟨L0, hL0, hn0⟩
      rw [decide_eq_true_eq] at hn0
      apply List.any_eq_true.mpr
      by_cases h1 : L0.name = b.name
      · exact absurd (h1.symm.trans hn0) (Ne.symm hne)
      · exact ⟨L0, List.mem_map.mpr ⟨L0, hL0, by rw [if_neg h1]⟩, decide_eq_true hn0⟩
    · intro L hL hname
      rcases List.mem_map.mp hL with ⟨L1, hL1, rfl⟩
      by_cases h1 : L1.name = b.name
      · exfalso
        rw [if_pos h1] at hname
        have hLa : L1.name = a.name := hname
        exact Ne.symm hne (h1.symm.trans hLa)
      · rw [if_neg h1] at hname ⊢
        exact h.2 L1 hL1 hname
  · rw [if_neg hb]
    constructor
    · rcases List.any_eq_true.mp h.1 with ⟨L0, hL0, hn0⟩
      exact List.any_eq_true.mpr ⟨L0, List.mem_append.mpr (Or.inl hL0), hn0⟩
    · intro L hL hname
      rcases List.mem_append.mp hL with h1 | h1
      · exact h.2 L h1 hname
      · rcases List.mem_singleton.mp h1 with rfl
        have hba : b.name = a.name := hname
        exact absurd hba.symm hne

theorem epCatalogAdd_eq_self {cat : List (EndpointList ActionD)} {nid : String}
    {skey : SKey} {a : ActionD} (h : CatSettled cat nid skey a) :
    epCatalogAdd a.name nid skey a cat = cat := by
  rw [epCatalogAdd, if_pos h.1]
  have : ∀ L ∈ cat, (if L.name = a.name then
      (⟨L.name, epListUpsert nid skey a L.endpoints⟩ : EndpointList ActionD) else L) = L := by
    intro L hL
    by_cases h1 : L.name = a.name
    · rw [if_pos h1, epListUpsert_eq_self nid skey a (h.2 L hL h1)]
    · rw [if_neg h1]
  rw [List.map_congr_left this]
  exact List.map_id _

theorem entrySettled_assocUpsertA (a : ActionD) (m : List (String × ActionD)) :
    EntrySettled (assocUpsertA a m) a := by
  rw [assocUpsertA]
  by_cases h : m.any (fun p => decide (p.1 = a.name)) = true
  · rw [if_pos h]
    constructor
    · rcases List.any_eq_true.mp h with ⟨q0, hq0, hk0⟩
      rw [decide_eq_true_eq] at hk0
      apply List.any_eq_true.mpr
      exact ⟨(a.name, a), List.mem_map.mpr ⟨q0, hq0, by rw [if_pos hk0]⟩, by simp⟩
    · intro q hq hk
      rcases List.mem_map.mp hq with ⟨q1, _, rfl⟩
      by_cases h1 : q1.1 = a.name
      · rw [if_pos h1]
      · rw [if_neg h1] at hk ⊢
        exact absurd hk h1
  · rw [if_neg h]
    constructor
    · exact List.any_eq_true.mpr ⟨(a.name, a),
        List.mem_append.mpr (Or.inr (List.mem_singleton.mpr rfl)), by simp⟩
    · intro q hq hk
      rcases List.mem_append.mp hq with h1 | h1
      · exact absurd (List.any_eq_true.mpr ⟨q, h1, decide_eq_true hk⟩) h
      · exact List.mem_singleton.mp h1

theorem entrySettled_assocUpsertA_other {a b : ActionD} {m : List (String × ActionD)}
    (hne : a.name ≠ b.name) (h : EntrySettled m a) :
    EntrySettled (assocUpsertA b m) a := by
  rw [assocUpsertA]
  by_cases hb : m.any (fun p => decide (p.1 = b.name)) = true
  · rw [if_pos hb]
    constructor
    · rcases List.any_eq_true.mp h.1 with ⟨q0, hq0, hk0⟩
      rw [decide_eq_true_eq] at hk0
      have h1 : ¬ q0.1 = b.name := by rw [hk0]; exact hne
      exact List.any_eq_true.mpr ⟨q0, List.mem_map.mpr ⟨q0, hq0, by rw [if_neg h1]⟩,
        decide_eq_true hk0⟩
    · intro q hq hk
      rcases List.mem_map.mp hq with ⟨q1, hq1, rfl⟩
      by_cases h1 : q1.1 = b.name
      · rw [if_pos h1] at hk ⊢
        exact absurd hk.symm (by exact fun he => hne (by rw [he]))
      · rw [if_neg h1] at hk ⊢
        exact h.2 q1 hq1 hk
  · rw [if_neg hb]
    constructor
    · rcases List.any_eq_true.mp h.1 with ⟨q0, hq0, hk0⟩
      exact List.any_eq_true.mpr ⟨q0, List.mem_append.mpr (Or.inl hq0), hk0⟩
    · intro q hq hk
      rcases List.mem_append.mp hq with h1 | h1
      · exact h.2 q h1 hk
      · rcases List.mem_singleton.mp h1 with rfl
        have hba : b.name = a.name := hk
        exact absurd hba.symm hne

theorem assocUpsertA_eq_self {a : ActionD} {m : List (String × ActionD)}
    (h : EntrySettled m a) : assocUpsertA a m = m := by
  rw [assocUpsertA, if_pos h.1]
  have : ∀ q ∈ m, (if q.1 = a.name then (a.name, a) else q) = q := by
    intro q hq
    by_cases h1 : q.1 = a.name
    · rw [if_pos h1, h.2 q hq h1]
    · rw [if_neg h1]
  rw [List.map_congr_left this]
  exact List.map_id _

theorem find?_updateFirst {p : α → Bool} {f : α → α} {l : List α}
    (hf : ∀ x, p (f x) = p x) :
    (updateFirst p f l).find? p = (l.find? p).map f := by
  induction l with
  | nil => rfl
  | cons y ys ih =>
    by_cases hy : p y = true
    · rw [updateFirst, if_pos hy, List.find?_cons_of_pos _ (by rw [hf]; exact hy),
        List.find?_cons_of_pos _ hy, Option.map_some']
    · rw [updateFirst, if_neg hy, List.find?_cons_of_neg _ hy,
        List.find?_cons_of_neg _ hy, ih]

theorem updateFirst_eq_self_of_find? {p : α → Bool} {f : α → α} {l : List α}
    (h : ∀ x, l.find? p = some x → f x = x) : updateFirst p f l = l := by
  induction l with
  | nil => rfl
  | cons y ys ih =>
    by_cases hy : p y = true
    · rw [updateFirst, if_pos hy, h y (List.find?_cons_of_pos _ hy)]
    · rw [updateFirst, if_neg hy, ih]
      intro x hx
      exact h x ((List.find?_cons_of_neg _ hy).symm ▸ hx)

/-- Every endpoint list of the catalog holds at most one endpoint per node. -/
def EpNodup (cat : List (EndpointList ActionD)) : Prop :=
  ∀ L ∈ cat, (L.endpoints.map (fun ep => ep.nodeId)).Nodup

instance (cat : List (EndpointList ActionD)) : Decidable (EpNodup cat) := by
  unfold EpNodup; infer_instance

theorem epNodup_epCatalogAdd {cat : List (EndpointList ActionD)}
    (name nid : String) (skey : SKey) (a : ActionD) (h : EpNodup cat) :
    EpNodup (epCatalogAdd name nid skey a cat) := by
  rw [epCatalogAdd]
  by_cases hb : cat.any (fun L => decide (L.name = name)) = true
  · rw [if_pos hb]
    intro L hL
    rcases List.mem_map.mp hL with ⟨L1, hL1, rfl⟩
    by_cases h1 : L1.name = name
    · rw [if_pos h1]
      show ((epListUpsert nid skey a L1.endpoints).map (fun ep => ep.nodeId)).Nodup
      rw [epListUpsert]
      by_cases h2 : L1.endpoints.any (fun ep => decide (ep.nodeId = nid)) = true
      · rw [if_pos h2]
        have hmap : ((L1.endpoints.map (fun ep =>
            if ep.nodeId = nid then (⟨nid, skey, a, true⟩ : Endpoint ActionD) else ep)).map
              (fun ep => ep.nodeId)) = L1.endpoints.map (fun ep => ep.nodeId) := by
          rw [List.map_map]
          apply List.map_congr_left
          intro ep _
          by_cases h3 : ep.nodeId = nid
          · rw [Function.comp_apply, if_pos h3, h3]
          · rw [Function.comp_apply, if_neg h3]
        rw [hmap]
        exact h L1 hL1
      · rw [if_neg h2, List.map_append]
        simp only [List.map_cons, List.map_nil]
        apply List.Nodup.append (h L1 hL1) (List.nodup_singleton nid)
        intro x hx hx2
        rcases List.mem_singleton.mp hx2 with rfl
        rcases List.mem_map.mp hx with ⟨ep, hep, hid⟩
        exact h2 (List.any_eq_true.mpr ⟨ep, hep, decide_eq_true hid⟩)
    · rw [if_neg h1]
      exact h L1 hL1
  · rw [if_neg hb]
    intro L hL
    rcases List.mem_append.mp hL with h1 | h1
    · exact h L h1
    · rcases List.mem_singleton.mp h1 with rfl
      simp

/-- The per-action settledness carried through a `registerActions` pass. -/
def ActSettled (node : Node) (skey : SKey) (a : ActionD) (st : Registry) : Prop :=
  CatSettled st.actions node.id skey a ∧
  ∀ t, st.services.find? (predSkey skey) = some t → EntrySettled t.actions a

theorem raStep_actions (node : Node) (skey : SKey) (st : Registry)
    (p : String × ActionD) :
    (raStep node skey st p).actions = epCatalogAdd p.2.name node.id skey p.2 st.actions := rfl

theorem raStep_services (node : Node) (skey : SKey) (st : Registry)
    (p : String × ActionD) :
    (raStep node skey st p).services = updateFirst (predSkey skey)
      (fun s => { s with actions := assocUpsertA p.2 s.actions }) st.services := rfl

theorem find?_raStep (node : Node) (skey : SKey) (st : Registry)
    (p : String × ActionD) :
    (raStep node skey st p).services.find? (predSkey skey) =
      (st.services.find? (predSkey skey)).map
        (fun s => { s with actions := assocUpsertA p.2 s.actions }) := by
  rw [raStep_services]
  exact find?_updateFirst (fun s => rfl)

theorem actSettled_step {node : Node} {skey : SKey} {a : ActionD} {st : Registry}
    {p : String × ActionD}
    (hne : a.name ≠ p.2.name) (h : ActSettled node skey a st) :
    ActSettled node skey a (raStep node skey st p) := by
  constructor
  · rw [raStep_actions]
    exact catSettled_epCatalogAdd_other st.actions hne h.1
  · intro t ht
    rw [find?_raStep] at ht
    cases hf : st.services.find? (predSkey skey) with
    | none => rw [hf] at ht; cases ht
    | some t0 =>
      rw [hf, Option.map_some'] at ht
      rcases Option.some.injEq _ _ ▸ ht with rfl
      exact entrySettled_assocUpsertA_other hne (h.2 t0 hf)

theorem actSettled_estab (node : Node) (skey : SKey) (st : Registry)
    (p : String × ActionD) :
    ActSettled node skey p.2 (raStep node skey st p) := by
  constructor
  · rw [raStep_actions]
    exact catSettled_epCatalogAdd st.actions node.id skey p.2
  · intro t ht
    rw [find?_raStep] at ht
    cases hf : st.services.find? (predSkey skey) with
    | none => rw [hf] at ht; cases ht
    | some t0 =>
      rw [hf, Option.map_some'] at ht
      rcases Option.some.injEq _ _ ▸ ht with rfl
      exact entrySettled_assocUpsertA p.2 t0.actions

theorem registerActions_pass (node : Node) (skey : SKey) :
    ∀ (m : List (String × ActionD)) (st : Registry),
    EpNodup st.actions →
    (m.map (fun p => p.2.name)).Nodup →
    EpNodup (registerActions node skey m st).actions ∧
    (∀ (a : ActionD), ActSettled node skey a st →
      a.name ∉ m.map (fun p => p.2.name) →
      ActSettled node skey a (registerActions node skey m st)) ∧
    (∀ p ∈ m, ActSettled node skey p.2 (registerActions node skey m st)) := by
  intro m
  induction m with
  | nil =>
    intro st h1 _
    refine ⟨h1, fun a ha _ => ha, fun p hp => absurd hp (List.not_mem_nil p)⟩
  | cons p ps ih =>
    intro st h1 h2
    rw [List.map_cons, List.nodup_cons] at h2
    have hstep : registerActions node skey (p :: ps) st =
        registerActions node skey ps (raStep node skey st p) := by
      rw [registerActions, List.foldl_cons, ← registerActions]
    have hnodup2 : EpNodup (raStep node skey st p).actions := by
      rw [raStep_actions]
      exact epNodup_epCatalogAdd p.2.name node.id skey p.2 h1
    rcases ih (raStep node skey st p) hnodup2 h2.2 with ⟨ihA, ihB, ihC⟩
    refine ⟨by rw [hstep]; exact ihA, ?_, ?_⟩
    · intro a ha hnot
      rw [List.map_cons] at hnot
      have hne : a.name ≠ p.2.name := fun he => hnot (by rw [he]; exact List.mem_cons_self _ _)
      rw [hstep]
      exact ihB a (actSettled_step hne ha) (fun hmem => hnot (List.mem_cons_of_mem _ hmem))
    · intro q hq
      rcases List.mem_cons.mp hq with rfl | hq2
      · rw [hstep]
        exact ihB q.2 (actSettled_estab node skey st q) h2.1
      · rw [hstep]
        exact ihC q hq2

theorem registerActions_step_fixed {node : Node} {skey : SKey} {st : Registry}
    {p : String × ActionD} (h : ActSettled node skey p.2 st) :
    raStep node skey st p = st := by
  have hcat : (raStep node skey st p).actions = st.actions := by
    rw [raStep_actions]
    exact epCatalogAdd_eq_self h.1
  have hsvc : (raStep node skey st p).services = st.services := by
    rw [raStep_services]
    apply updateFirst_eq_self_of_find?
    intro x hx
    have hup := assocUpsertA_eq_self (h.2 x hx)
    rw [hup]
  have hloc : (raStep node skey st p).localNode = st.localNode := rfl
  have hbrk : (raStep node skey st p).brokerNodeId = st.brokerNodeId := rfl
  have hlos : (raStep node skey st p).localServices = st.localServices := rfl
  have hevt : (raStep node skey st p).events = st.events := rfl
  cases hst : raStep node skey st p
  rw [hst] at hcat hsvc hloc hbrk hlos hevt
  cases st
  simp only at hcat hsvc hloc hbrk hlos hevt
  rw [hcat, hsvc, hloc, hbrk, hlos, hevt]

/-- Number of endpoints the corresponding EndpointList holds for the given
(action name, node id) pair. -/
def countEp (st : Registry) (name nid : String) : Nat :=
  match epCatalogGet name st.actions with
  | none => 0
  | some L => (L.endpoints.filter (fun ep => decide (ep.nodeId = nid))).length

theorem countEp_of_settled {st : Registry} {nid : String} {skey : SKey} {a : ActionD}
    (hset : CatSettled st.actions nid skey a) (hnd : EpNodup st.actions) :
    countEp st a.name nid = 1 := by
  cases hfind : epCatalogGet a.name st.actions with
  | none =>
    exfalso
    rcases List.any_eq_true.mp hset.1 with ⟨L0, hL0, hn0⟩
    exact (List.find?_eq_none.mp hfind L0 hL0) hn0
  | some L =>
    have hmem := List.mem_of_find?_eq_some hfind
    have hname : L.name = a.name := by simpa using List.find?_some hfind
    rcases hset.2 L hmem hname with ⟨hany, hall⟩
    have hred : countEp st a.name nid =
        (L.endpoints.filter (fun ep => decide (ep.nodeId = nid))).length := by
      simp only [countEp, hfind]
    rw [hred]
    rcases List.any_eq_true.mp hany with ⟨ep0, hep0, hid0⟩
    rw [decide_eq_true_eq] at hid0
    have hmemf : ep0 ∈ L.endpoints.filter (fun ep => decide (ep.nodeId = nid)) :=
      List.mem_filter.mpr ⟨hep0, decide_eq_true hid0⟩
    have hnodupf : ((L.endpoints.filter (fun ep => decide (ep.nodeId = nid))).map
        (fun ep => ep.nodeId)).Nodup :=
      ((List.filter_sublist _).map _).nodup (hnd L hmem)
    cases hfil : L.endpoints.filter (fun ep => decide (ep.nodeId = nid)) with
    | nil => rw [hfil] at hmemf; cases hmemf
    | cons x xs =>
      cases xs with
      | nil => rfl
      | cons y ys =>
        exfalso
        rw [hfil] at hnodupf
        have hx : x ∈ L.endpoints.filter (fun ep => decide (ep.nodeId = nid)) := by
          rw [hfil]; exact List.mem_cons_self _ _
        have hy : y ∈ L.endpoints.filter (fun ep => decide (ep.nodeId = nid)) := by
          rw [hfil]; exact List.mem_cons_of_mem _ (List.mem_cons_self _ _)
        have hxid : x.nodeId = nid := by
          simpa using (List.mem_filter.mp hx).2
        have hyid : y.nodeId = nid := by
          simpa using (List.mem_filter.mp hy).2
        simp only [List.map_cons, List.nodup_cons, List.mem_cons, List.mem_map] at hnodupf
        exact hnodupf.1 (Or.inl (hxid.trans hyid.symm))

/-- Claim C6: re-registering an identical actions map is an upsert — after one
`registerActions` call there is exactly one endpoint in the corresponding
EndpointList for every (action name, node) pair of the map, and a second
identical call leaves the state produced by the first call unchanged.
Hypotheses: the map carries each action name once (JavaScript maps are keyed
by name) and the prior state holds at most one endpoint per node in each list. -/
theorem registerActions_upsert_idempotent (st : Registry) (node : Node)
    (skey : SKey) (m : List (String × ActionD))
    (hnames : (m.map (fun p => p.2.name)).Nodup)
    (heps : EpNodup st.actions) :
    registerActions node skey m (registerActions node skey m st) =
      registerActions node skey m st ∧
    ∀ p ∈ m, countEp (registerActions node skey m st) p.2.name node.id = 1 := by
  rcases registerActions_pass node skey m st heps hnames with ⟨hA, _, hC⟩
  constructor
  · rw [registerActions]
    apply foldl_fixed_of
    intro p hp
    exact registerActions_step_fixed (hC p hp)
  · intro p hp
    exact countEp_of_settled (hC p hp).1 hA

/-- Witness for claim C6 at a concrete registry. -/
theorem registerActions_upsert_idempotent_witness :
    registerActions exNode (some "math", some 1, "n1") [("add", ⟨"add", 7⟩)]
        (registerActions exNode (some "math", some 1, "n1") [("add", ⟨"add", 7⟩)] exSt) =
      registerActions exNode (some "math", some 1, "n1") [("add", ⟨"add", 7⟩)] exSt ∧
    ∀ p ∈ [(("add" : String), (⟨"add", 7⟩ : ActionD))],
      countEp (registerActions exNode (some "math", some 1, "n1") [("add", ⟨"add", 7⟩)] exSt)
        p.2.name exNode.id = 1 :=
  registerActions_upsert_idempotent exSt exNode (some "math", some 1, "n1")
    [("add", ⟨"add", 7⟩)] (by decide) (by decide)

/-! ### Further list helpers for the reconciliation proof -/

theorem updateFirst_id {p : α → Bool} {l : List α} :
    updateFirst p (fun x => x) l = l := by
  induction l with
  | nil => rfl
  | cons x xs ih =>
    by_cases hx : p x = true
    · rw [updateFirst, if_pos hx]
    · rw [updateFirst, if_neg hx, ih]

theorem updateFirst_congr {p : α → Bool} {f g : α → α} {l : List α}
    (h : ∀ x, f x = g x) : updateFirst p f l = updateFirst p g l := by
  induction l with
  | nil => rfl
  | cons x xs ih =>
    by_cases hx : p x = true
    · rw [updateFirst, updateFirst, if_pos hx, if_pos hx, h]
    · rw [updateFirst, updateFirst, if_neg hx, if_neg hx, ih]

theorem updateFirst_updateFirst {p : α → Bool} {f g : α → α} {l : List α}
    (hp : ∀ x, p (g x) = p x) :
    updateFirst p f (updateFirst p g l) = updateFirst p (fun x => f (g x)) l := by
  induction l with
  | nil => rfl
  | cons x xs ih =>
    by_cases hx : p x = true
    · rw [updateFirst, if_pos hx, updateFirst, if_pos (by rw [hp]; exact hx),
        updateFirst, if_pos hx]
    · rw [updateFirst, if_neg hx, updateFirst, if_neg hx, updateFirst, if_neg hx, ih]

theorem updateFirst_split {p : α → Bool} {l : List α} {y : α}
    (h : l.find? p = some y) (f : α → α) :
    ∃ l1 l2, l = l1 ++ y :: l2 ∧ (∀ z ∈ l1, p z = false) ∧
      updateFirst p f l = l1 ++ f y :: l2 := by
  induction l with
  | nil => cases h
  | cons x xs ih =>
    by_cases hx : p x = true
    · rw [List.find?_cons_of_pos _ hx] at h
      rcases Option.some.injEq _ _ ▸ h with rfl
      refine ⟨[], xs, rfl, ?_, ?_⟩
      · intro z hz; cases hz
      · rw [updateFirst, if_pos hx]; rfl
    · rw [List.find?_cons_of_neg _ hx] at h
      rcases ih h with ⟨l1, l2, hsplit, hnm, hupd⟩
      refine ⟨x :: l1, l2, by rw [hsplit]; rfl, ?_, ?_⟩
      · intro z hz
        rcases List.mem_cons.mp hz with rfl | hz2
        · exact Bool.not_eq_true _ ▸ (by simpa using hx)
        · exact hnm z hz2
      · rw [updateFirst, if_neg hx, hupd]
        rfl

theorem removeFirst_split {p : α → Bool} {l : List α} {y : α}
    (h : l.find? p = some y) :
    ∃ l1 l2, l = l1 ++ y :: l2 ∧ (∀ z ∈ l1, p z = false) ∧
      removeFirst p l = l1 ++ l2 := by
  induction l with
  | nil => cases h
  | cons x xs ih =>
    by_cases hx : p x = true
    · rw [List.find?_cons_of_pos _ hx] at h
      rcases Option.some.injEq _ _ ▸ h with rfl
      refine ⟨[], xs, rfl, ?_, ?_⟩
      · intro z hz; cases hz
      · rw [removeFirst, if_pos hx]; rfl
    · rw [List.find?_cons_of_neg _ hx] at h
      rcases ih h with ⟨l1, l2, hsplit, hnm, hupd⟩
      refine ⟨x :: l1, l2, by rw [hsplit]; rfl, ?_, ?_⟩
      · intro z hz
        rcases List.mem_cons.mp hz with rfl | hz2
        · exact Bool.not_eq_true _ ▸ (by simpa using hx)
        · exact hnm z hz2
      · rw [removeFirst, if_neg hx, hupd]
        rfl

theorem updateFirst_append_of_none {p : α → Bool} {f : α → α} {l l2 : List α}
    (h : ∀ x ∈ l, p x = false) :
    updateFirst p f (l ++ l2) = l ++ updateFirst p f l2 := by
  induction l with
  | nil => rfl
  | cons x xs ih =>
    have hx : ¬ p x = true := by
      rw [h x (List.mem_cons_self x xs)]; exact Bool.false_ne_true
    rw [List.cons_append, updateFirst, if_neg hx,
      ih (fun z hz => h z (List.mem_cons_of_mem x hz))]
    rfl

theorem find?_eq_some_of_unique {p : α → Bool} {l : List α} {u : α}
    (hu : u ∈ l) (hpu : p u = true) (huniq : ∀ v ∈ l, p v = true → v = u) :
    l.find? p = some u := by
  induction l with
  | nil => cases hu
  | cons x xs ih =>
    by_cases hx : p x = true
    · rw [List.find?_cons_of_pos _ hx, huniq x (List.mem_cons_self x xs) hx]
    · rw [List.find?_cons_of_neg _ hx]
      rcases List.mem_cons.mp hu with rfl | hu2
      · exact absurd hpu hx
      · exact ih hu2 (fun v hv hpv => huniq v (List.mem_cons_of_mem x hv) hpv)

theorem mem_removeFirst_iff {p : α → Bool} {l : List α}
    (hpw : l.Pairwise (fun a b => ¬(p a = true ∧ p b = true))) (s : α) :
    s ∈ removeFirst p l ↔ (s ∈ l ∧ p s = false) := by
  constructor
  · intro hs
    refine ⟨(removeFirst_sublist p l).mem hs, ?_⟩
    have := removeFirst_no_match hpw s hs
    exact Bool.not_eq_true _ ▸ (by simpa using this)
  · rintro ⟨hs, hps⟩
    exact mem_removeFirst_of_not hs (by rw [hps]; exact Bool.false_ne_true)

theorem pairwise_key_unique {r : α → α → Prop} {l : List α}
    (hsym : Symmetric r) (hpw : l.Pairwise r) {s t : α}
    (hs : s ∈ l) (ht : t ∈ l) (hcon : ¬ r s t) : s = t := by
  by_contra hne
  exact hcon (hpw.forall hsym hs ht hne)

/-! ### Endpoint-catalog effect of the bulk registration operations -/

theorem hasActionEp_registerActions (node : Node) (skey : SKey)
    (m : List (String × ActionD)) (st : Registry) (x nid : String) :
    HasActionEp (registerActions node skey m st) x nid ↔
      (HasActionEp st x nid ∨ (nid = node.id ∧ x ∈ m.map (fun p => p.2.name))) := by
  induction m generalizing st with
  | nil =>
    rw [registerActions, List.foldl_nil]
    simp
  | cons p ps ih =>
    rw [registerActions, List.foldl_cons, ← registerActions, ih]
    have hstep : HasActionEp (raStep node skey st p) x nid ↔
        ((x = p.2.name ∧ nid = node.id) ∨ HasActionEp st x nid) := by
      show CatHasEp (raStep node skey st p).actions x nid ↔ _
      rw [raStep_actions]
      exact catHasEp_epCatalogAdd
    rw [hstep, List.map_cons]
    simp only [List.mem_cons]
    tauto

theorem hasEventEp_registerEvents (node : Node) (skey : SKey)
    (m : List (String × EventD)) (st : Registry) (x nid : String) :
    HasEventEp (registerEvents node skey m st) x nid ↔
      (HasEventEp st x nid ∨ (nid = node.id ∧ x ∈ m.map (fun p => p.2.name))) := by
  induction m generalizing st with
  | nil =>
    rw [registerEvents, List.foldl_nil]
    simp
  | cons p ps ih =>
    rw [registerEvents, List.foldl_cons, ← registerEvents, ih]
    have hstep : HasEventEp (reStep node skey st p) x nid ↔
        ((x = p.2.name ∧ nid = node.id) ∨ HasEventEp st x nid) := by
      show CatHasEp (reStep node skey st p).events x nid ↔ _
      exact catHasEp_epCatalogAdd
    rw [hstep, List.map_cons]
    simp only [List.mem_cons]
    tauto

theorem hasEventEp_registerActions (node : Node) (skey : SKey)
    (m : List (String × ActionD)) (st : Registry) (x nid : String) :
    HasEventEp (registerActions node skey m st) x nid ↔ HasEventEp st x nid := by
  show CatHasEp (registerActions node skey m st).events x nid ↔ _
  rw [registerActions_events]
  exact Iff.rfl

theorem hasActionEp_registerEvents (node : Node) (skey : SKey)
    (m : List (String × EventD)) (st : Registry) (x nid : String) :
    HasActionEp (registerEvents node skey m st) x nid ↔ HasActionEp st x nid := by
  show CatHasEp (registerEvents node skey m st).actions x nid ↔ _
  rw [registerEvents_actions]
  exact Iff.rfl

/-! ### Effect of the stale-name sweeps -/

theorem removeOldActions_ok (node : Node) (m : List (String × ActionD))
    (prev : List (String × ActionD)) (st : Registry) :
    removeOldActions node (some m) prev st = Except.ok (sweepOldA node m prev st) := rfl

theorem removeOldEvents_ok (node : Node) (m : List (String × EventD))
    (prev : List (String × EventD)) (st : Registry) :
    removeOldEvents node (some m) prev st = Except.ok (sweepOldE node m prev st) := rfl

theorem hasActionEp_sweepOldA (node : Node) (m prev : List (String × ActionD))
    (st : Registry) (x nid : String) :
    HasActionEp (sweepOldA node m prev st) x nid ↔
      (HasActionEp st x nid ∧
        ¬(nid = node.id ∧ x ∈ prev.map Prod.fst ∧ x ∉ m.map Prod.fst)) := by
  induction prev generalizing st with
  | nil =>
    rw [sweepOldA, List.foldl_nil]
    simp
  | cons p ps ih =>
    rw [sweepOldA, List.foldl_cons, ← sweepOldA]
    by_cases hq : (m.any fun q => decide (q.1 = p.1)) = true
    · rw [if_pos hq, ih]
      have hp1 : p.1 ∈ m.map Prod.fst := by
        rcases List.any_eq_true.mp hq with ⟨q0, hq0, hk0⟩
        rw [decide_eq_true_eq] at hk0
        exact List.mem_map.mpr ⟨q0, hq0, hk0⟩
      rw [List.map_cons]
      simp only [List.mem_cons]
      constructor
      · rintro ⟨h1, h2⟩
        refine ⟨h1, ?_⟩
        rintro ⟨e1, e2 | e2, e3⟩
        · exact e3 (e2 ▸ hp1)
        · exact h2 ⟨e1, e2, e3⟩
      · rintro ⟨h1, h2⟩
        exact ⟨h1, fun ⟨e1, e2, e3⟩ => h2 ⟨e1, Or.inr e2, e3⟩⟩
    · rw [if_neg hq, ih]
      have hstep : HasActionEp (unregisterAction node p.1 st) x nid ↔
          (HasActionEp st x nid ∧ ¬(x = p.1 ∧ nid = node.id)) := by
        show CatHasEp (epCatalogRemove p.1 node.id st.actions) x nid ↔ _
        exact catHasEp_epCatalogRemove
      rw [hstep]
      have hp1 : p.1 ∉ m.map Prod.fst := by
        intro hmem
        rcases List.mem_map.mp hmem with ⟨q0, hq0, hk0⟩
        exact hq (List.any_eq_true.mpr ⟨q0, hq0, decide_eq_true hk0⟩)
      rw [List.map_cons]
      simp only [List.mem_cons]
      constructor
      · rintro ⟨⟨h1, h2⟩, h3⟩
        refine ⟨h1, ?_⟩
        rintro ⟨e1, e2 | e2, e3⟩
        · exact h2 ⟨e2, e1⟩
        · exact h3 ⟨e1, e2, e3⟩
      · rintro ⟨h1, h2⟩
        refine ⟨⟨h1, ?_⟩, ?_⟩
        · rintro ⟨e1, e2⟩
          exact h2 ⟨e2, Or.inl e1, e1 ▸ hp1⟩
        · rintro ⟨e1, e2, e3⟩
          exact h2 ⟨e1, Or.inr e2, e3⟩

theorem hasEventEp_sweepOldE (node : Node) (m prev : List (String × EventD))
    (st : Registry) (x nid : String) :
    HasEventEp (sweepOldE node m prev st) x nid ↔
      (HasEventEp st x nid ∧
        ¬(nid = node.id ∧ x ∈ prev.map Prod.fst ∧ x ∉ m.map Prod.fst)) := by
  induction prev generalizing st with
  | nil =>
    rw [sweepOldE, List.foldl_nil]
    simp
  | cons p ps ih =>
    rw [sweepOldE, List.foldl_cons, ← sweepOldE]
    by_cases hq : (m.any fun q => decide (q.1 = p.1)) = true
    · rw [if_pos hq, ih]
      have hp1 : p.1 ∈ m.map Prod.fst := by
        rcases List.any_eq_true.mp hq with ⟨q0, hq0, hk0⟩
        rw [decide_eq_true_eq] at hk0
        exact List.mem_map.mpr ⟨q0, hq0, hk0⟩
      rw [List.map_cons]
      simp only [List.mem_cons]
      constructor
      · rintro ⟨h1, h2⟩
        refine ⟨h1, ?_⟩
        rintro ⟨e1, e2 | e2, e3⟩
        · exact e3 (e2 ▸ hp1)
        · exact h2 ⟨e1, e2, e3⟩
      · rintro ⟨h1, h2⟩
        exact ⟨h1, fun ⟨e1, e2, e3⟩ => h2 ⟨e1, Or.inr e2, e3⟩⟩
    · rw [if_neg hq, ih]
      have hstep : HasEventEp (unregisterEvent node p.1 st) x nid ↔
          (HasEventEp st x nid ∧ ¬(x = p.1 ∧ nid = node.id)) := by
        show CatHasEp (epCatalogRemove p.1 node.id st.events) x nid ↔ _
        exact catHasEp_epCatalogRemove
      rw [hstep]
      have hp1 : p.1 ∉ m.map Prod.fst := by
        intro hmem
        rcases List.mem_map.mp hmem with ⟨q0, hq0, hk0⟩
        exact hq (List.any_eq_true.mpr ⟨q0, hq0, decide_eq_true hk0⟩)
      rw [List.map_cons]
      simp only [List.mem_cons]
      constructor
      · rintro ⟨⟨h1, h2⟩, h3⟩
        refine ⟨h1, ?_⟩
        rintro ⟨e1, e2 | e2, e3⟩
        · exact h2 ⟨e2, e1⟩
        · exact h3 ⟨e1, e2, e3⟩
      · rintro ⟨h1, h2⟩
        refine ⟨⟨h1, ?_⟩, ?_⟩
        · rintro ⟨e1, e2⟩
          exact h2 ⟨e2, Or.inl e1, e1 ▸ hp1⟩
        · rintro ⟨e1, e2, e3⟩
          exact h2 ⟨e1, Or.inr e2, e3⟩

theorem sweepOldA_services (node : Node) (m prev : List (String × ActionD))
    (st : Registry) : (sweepOldA node m prev st).services = st.services := by
  induction prev generalizing st with
  | nil => rfl
  | cons p ps ih =>
    rw [sweepOldA, List.foldl_cons, ← sweepOldA]
    by_cases hq : (m.any fun q => decide (q.1 = p.1)) = true
    · rw [if_pos hq]; exact ih st
    · rw [if_neg hq]; exact ih _

theorem sweepOldA_events (node : Node) (m prev : List (String × ActionD))
    (st : Registry) : (sweepOldA node m prev st).events = st.events := by
  induction prev generalizing st with
  | nil => rfl
  | cons p ps ih =>
    rw [sweepOldA, List.foldl_cons, ← sweepOldA]
    by_cases hq : (m.any fun q => decide (q.1 = p.1)) = true
    · rw [if_pos hq]; exact ih st
    · rw [if_neg hq]; exact ih _

theorem sweepOldE_services (node : Node) (m prev : List (String × EventD))
    (st : Registry) : (sweepOldE node m prev st).services = st.services := by
  induction prev generalizing st with
  | nil => rfl
  | cons p ps ih =>
    rw [sweepOldE, List.foldl_cons, ← sweepOldE]
    by_cases hq : (m.any fun q => decide (q.1 = p.1)) = true
    · rw [if_pos hq]; exact ih st
    · rw [if_neg hq]; exact ih _

theorem sweepOldE_actions (node : Node) (m prev : List (String × EventD))
    (st : Registry) : (sweepOldE node m prev st).actions = st.actions := by
  induction prev generalizing st with
  | nil => rfl
  | cons p ps ih =>
    rw [sweepOldE, List.foldl_cons, ← sweepOldE]
    by_cases hq : (m.any fun q => decide (q.1 = p.1)) = true
    · rw [if_pos hq]; exact ih st
    · rw [if_neg hq]; exact ih _

theorem hasEventEp_sweepOldA (node : Node) (m prev : List (String × ActionD))
    (st : Registry) (x nid : String) :
    HasEventEp (sweepOldA node m prev st) x nid ↔ HasEventEp st x nid := by
  show CatHasEp (sweepOldA node m prev st).events x nid ↔ _
  rw [sweepOldA_events]
  exact Iff.rfl

theorem hasActionEp_sweepOldE (node : Node) (m prev : List (String × EventD))
    (st : Registry) (x nid : String) :
    HasActionEp (sweepOldE node m prev st) x nid ↔ HasActionEp st x nid := by
  show CatHasEp (sweepOldE node m prev st).actions x nid ↔ _
  rw [sweepOldE_actions]
  exact Iff.rfl

/-! ### Service-list effect of the bulk registration operations -/

theorem registerActions_services_eq (node : Node) (skey : SKey)
    (m : List (String × ActionD)) (st : Registry) :
    (registerActions node skey m st).services = updateFirst (predSkey skey)
      (fun t => m.foldl (fun t p => { t with actions := assocUpsertA p.2 t.actions }) t)
      st.services := by
  induction m generalizing st with
  | nil =>
    rw [registerActions, List.foldl_nil]
    symm
    apply updateFirst_eq_self
    intro x _ _
    rfl
  | cons p ps ih =>
    rw [registerActions, List.foldl_cons, ← registerActions, ih, raStep_services]
    have hcomp := @updateFirst_updateFirst ServiceItem (predSkey skey)
      (fun t => List.foldl (fun (u : ServiceItem) (q : String × ActionD) =>
        { u with actions := assocUpsertA q.2 u.actions }) t ps)
      (fun s => { s with actions := assocUpsertA p.2 s.actions })
      st.services (fun t => rfl)
    rw [hcomp]
    exact updateFirst_congr (fun t => by rw [List.foldl_cons])

theorem registerEvents_services_eq (node : Node) (skey : SKey)
    (m : List (String × EventD)) (st : Registry) :
    (registerEvents node skey m st).services = updateFirst (predSkey skey)
      (fun t => m.foldl (fun t p => { t with events := assocUpsertE p.2 t.events }) t)
      st.services := by
  induction m generalizing st with
  | nil =>
    rw [registerEvents, List.foldl_nil]
    symm
    apply updateFirst_eq_self
    intro x _ _
    rfl
  | cons p ps ih =>
    have hre : (reStep node skey st p).services = updateFirst (predSkey skey)
        (fun s => { s with events := assocUpsertE p.2 s.events }) st.services := rfl
    rw [registerEvents, List.foldl_cons, ← registerEvents, ih, hre]
    have hcomp := @updateFirst_updateFirst ServiceItem (predSkey skey)
      (fun t => List.foldl (fun (u : ServiceItem) (q : String × EventD) =>
        { u with events := assocUpsertE q.2 u.events }) t ps)
      (fun s => { s with events := assocUpsertE p.2 s.events })
      st.services (fun t => rfl)
    rw [hcomp]
    exact updateFirst_congr (fun t => by rw [List.foldl_cons])

theorem foldUpdA_spec (m : List (String × ActionD)) (s : ServiceItem) :
    m.foldl (fun t p => { t with actions := assocUpsertA p.2 t.actions }) s =
      { s with actions := m.foldl (fun acc p => assocUpsertA p.2 acc) s.actions } := by
  induction m generalizing s with
  | nil => rfl
  | cons p ps ih =>
    rw [List.foldl_cons, ih, List.foldl_cons]

theorem foldUpdE_spec (m : List (String × EventD)) (s : ServiceItem) :
    m.foldl (fun t p => { t with events := assocUpsertE p.2 t.events }) s =
      { s with events := m.foldl (fun acc p => assocUpsertE p.2 acc) s.events } := by
  induction m generalizing s with
  | nil => rfl
  | cons p ps ih =>
    rw [List.foldl_cons, ih, List.foldl_cons]

theorem mem_keys_assocUpsertA (a : ActionD) (m : List (String × ActionD))
    (x : String) :
    x ∈ (assocUpsertA a m).map Prod.fst ↔ (x ∈ m.map Prod.fst ∨ x = a.name) := by
  rw [assocUpsertA]
  by_cases h : (m.any fun p => decide (p.1 = a.name)) = true
  · rw [if_pos h]
    rcases List.any_eq_true.mp h with ⟨q0, hq0, hk0⟩
    rw [decide_eq_true_eq] at hk0
    constructor
    · intro hx
      rcases List.mem_map.mp hx with ⟨q, hq, hqx⟩
      rcases List.mem_map.mp hq with ⟨q1, hq1, rfl⟩
      by_cases h1 : q1.1 = a.name
      · rw [if_pos h1] at hqx
        exact Or.inr hqx.symm
      · rw [if_neg h1] at hqx
        exact Or.inl (List.mem_map.mpr ⟨q1, hq1, hqx⟩)
    · rintro (hx | rfl)
      · rcases List.mem_map.mp hx with ⟨q1, hq1, rfl⟩
        by_cases h1 : q1.1 = a.name
        · refine List.mem_map.mpr ⟨(a.name, a), ?_, h1.symm⟩
          exact List.mem_map.mpr ⟨q1, hq1, by rw [if_pos h1]⟩
        · refine List.mem_map.mpr ⟨q1, ?_, rfl⟩
          exact List.mem_map.mpr ⟨q1, hq1, by rw [if_neg h1]⟩
      · refine List.mem_map.mpr ⟨(a.name, a), ?_, rfl⟩
        exact List.mem_map.mpr ⟨q0, hq0, by rw [if_pos hk0]⟩
  · rw [if_neg h, List.map_append]
    rw [List.mem_append]
    simp only [List.map_cons, List.map_nil, List.mem_singleton]

theorem mem_keys_assocUpsertE (e : EventD) (m : List (String × EventD))
    (x : String) :
    x ∈ (assocUpsertE e m).map Prod.fst ↔ (x ∈ m.map Prod.fst ∨ x = e.name) := by
  rw [assocUpsertE]
  by_cases h : (m.any fun p => decide (p.1 = e.name)) = true
  · rw [if_pos h]
    rcases List.any_eq_true.mp h with ⟨q0, hq0, hk0⟩
    rw [decide_eq_true_eq] at hk0
    constructor
    · intro hx
      rcases List.mem_map.mp hx with ⟨q, hq, hqx⟩
      rcases List.mem_map.mp hq with ⟨q1, hq1, rfl⟩
      by_cases h1 : q1.1 = e.name
      · rw [if_pos h1] at hqx
        exact Or.inr hqx.symm
      · rw [if_neg h1] at hqx
        exact Or.inl (List.mem_map.mpr ⟨q1, hq1, hqx⟩)
    · rintro (hx | rfl)
      · rcases List.mem_map.mp hx with ⟨q1, hq1, rfl⟩
        by_cases h1 : q1.1 = e.name
        · refine List.mem_map.mpr ⟨(e.name, e), ?_, h1.symm⟩
          exact List.mem_map.mpr ⟨q1, hq1, by rw [if_pos h1]⟩
        · refine List.mem_map.mpr ⟨q1, ?_, rfl⟩
          exact List.mem_map.mpr ⟨q1, hq1, by rw [if_neg h1]⟩
      · refine List.mem_map.mpr ⟨(e.name, e), ?_, rfl⟩
        exact List.mem_map.mpr ⟨q0, hq0, by rw [if_pos hk0]⟩
  · rw [if_neg h, List.map_append]
    rw [List.mem_append]
    simp only [List.map_cons, List.map_nil, List.mem_singleton]

theorem mem_keys_foldUpsertA (m : List (String × ActionD))
    (init : List (String × ActionD)) (x : String) :
    x ∈ (m.foldl (fun acc p => assocUpsertA p.2 acc) init).map Prod.fst ↔
      (x ∈ init.map Prod.fst ∨ x ∈ m.map (fun p => p.2.name)) := by
  induction m generalizing init with
  | nil => simp
  | cons p ps ih =>
    rw [List.foldl_cons, ih, mem_keys_assocUpsertA, List.map_cons]
    simp only [List.mem_cons]
    tauto

theorem mem_keys_foldUpsertE (m : List (String × EventD))
    (init : List (String × EventD)) (x : String) :
    x ∈ (m.foldl (fun acc p => assocUpsertE p.2 acc) init).map Prod.fst ↔
      (x ∈ init.map Prod.fst ∨ x ∈ m.map (fun p => p.2.name)) := by
  induction m generalizing init with
  | nil => simp
  | cons p ps ih =>
    rw [List.foldl_cons, ih, mem_keys_assocUpsertE, List.map_cons]
    simp only [List.mem_cons]
    tauto

/-- Identity projection for service records: node id and (name, version). -/
def svcProj (s : ServiceItem) : (SvcName × SvcVer) × String :=
  ((s.name, s.version), s.node.id)

theorem hasService_iff_proj (st : Registry) (k : SvcName × SvcVer) (nid : String) :
    HasService st k nid ↔ (k, nid) ∈ st.services.map svcProj := by
  unfold HasService
  constructor
  · rintro ⟨s, hs, hid, hk⟩
    exact List.mem_map.mpr ⟨s, hs, by rw [svcProj, hk, hid]⟩
  · intro hmem
    rcases List.mem_map.mp hmem with ⟨s, hs, hproj⟩
    rw [svcProj] at hproj
    rcases Prod.mk.injEq _ _ _ _ ▸ hproj with ⟨h1, h2⟩
    exact ⟨s, hs, h2, h1⟩

/-! ### The reconciliation invariant -/

/-- Some service recorded for `node` under identity `k` in `st0` records the
action name `x` in its own map. -/
def PriorA (st0 : Registry) (node : Node) (k : SvcName × SvcVer) (x : String) : Prop :=
  ∃ s ∈ st0.services, s.node.id = node.id ∧ (s.name, s.version) = k ∧ RecordsA s x

/-- Event analogue of `PriorA`. -/
def PriorE (st0 : Registry) (node : Node) (k : SvcName × SvcVer) (x : String) : Prop :=
  ∃ s ∈ st0.services, s.node.id = node.id ∧ (s.name, s.version) = k ∧ RecordsE s x

/-- Processing descriptor `d` removes the endpoint for name `x` of `node`:
the matching prior service recorded `x` and the descriptor no longer carries
it. -/
def ClearsA (st0 : Registry) (node : Node) (d : ServiceDesc) (x : String) : Prop :=
  PriorA st0 node (d.name, d.version) x ∧ ¬ DescribesA d x

/-- Event analogue of `ClearsA`. -/
def ClearsE (st0 : Registry) (node : Node) (d : ServiceDesc) (x : String) : Prop :=
  PriorE st0 node (d.name, d.version) x ∧ ¬ DescribesE d x

/-- Two service records of `node` never share a (name, version) identity. -/
def keyRel (node : Node) (s t : ServiceItem) : Prop :=
  s.node.id = node.id → t.node.id = node.id → (s.name, s.version) ≠ (t.name, t.version)

/-- Identity projection used to transport `keyRel` and `HasService` across
list surgery that does not touch identities. -/
def projT (s : ServiceItem) : String × SvcName × SvcVer :=
  (s.node.id, s.name, s.version)

theorem pairwise_keyRel_transfer {node : Node} {l l2 : List ServiceItem}
    (h : l.map projT = l2.map projT) (hpw : l.Pairwise (keyRel node)) :
    l2.Pairwise (keyRel node) := by
  have h1 : (l.map projT).Pairwise
      (fun a b => a.1 = node.id → b.1 = node.id → a.2 ≠ b.2) :=
    List.pairwise_map.mpr hpw
  rw [h] at h1
  have h2 := List.pairwise_map.mp h1
  exact h2

theorem hasService_of_proj_eq {st st2 : Registry}
    (h : st.services.map svcProj = st2.services.map svcProj) (k : SvcName × SvcVer)
    (nid : String) : HasService st k nid ↔ HasService st2 k nid := by
  rw [hasService_iff_proj, hasService_iff_proj, h]

theorem describesA_iff {d : ServiceDesc} {mA : List (String × ActionD)}
    (hmA : d.actions = some mA) (x : String) :
    DescribesA d x ↔ x ∈ mA.map Prod.fst := by
  rw [DescribesA, hmA]
  exact Iff.rfl

theorem describesE_iff {d : ServiceDesc} {mE : List (String × EventD)}
    (hmE : d.events = some mE) (x : String) :
    DescribesE d x ↔ x ∈ mE.map Prod.fst := by
  rw [DescribesE, hmE]
  exact Iff.rfl

/-- The hypotheses under which a snapshot reconciliation is exact: the node's
id is non-empty (a falsy id makes the sweep's `nodeID || this.broker.nodeID`
defaulting target the broker instead of the node), every descriptor carries
its maps, keyed by the entries' own names, descriptor identities are pairwise
distinct, the prior state is consistent for `node` (unambiguous identities,
object references in agreement with node ids, no endpoint without a recording
service), and no action or event name is shared between two distinct service
identities of the node — across the node's prior services and the incoming
snapshot. -/
structure ReconcileOK (st0 : Registry) (node : Node) (S : List ServiceDesc) :
    Prop where
  nodeIdNe : node.id ≠ ""
  descActs : ∀ d ∈ S, (d.actions).isSome = true
  descEvts : ∀ d ∈ S, (d.events).isSome = true
  keyNamesA : ∀ d ∈ S, ∀ p ∈ d.actions.getD [], p.2.name = p.1
  keyNamesE : ∀ d ∈ S, ∀ p ∈ d.events.getD [], p.2.name = p.1
  keysNodup : (S.map (fun d => (d.name, d.version))).Nodup
  nodeIdIff : ∀ s ∈ st0.services, s.node.id = node.id ↔ s.node = node
  nodeRefIff : ∀ s ∈ st0.services, s.node.ref = node.ref ↔ s.node = node
  uniq : st0.services.Pairwise (keyRel node)
  orphanA : ∀ x, HasActionEp st0 x node.id →
    ∃ s ∈ st0.services, s.node.id = node.id ∧ RecordsA s x
  orphanE : ∀ x, HasEventEp st0 x node.id →
    ∃ s ∈ st0.services, s.node.id = node.id ∧ RecordsE s x
  disjAdd : ∀ d ∈ S, ∀ e ∈ S, (d.name, d.version) ≠ (e.name, e.version) →
    ∀ x, DescribesA d x → ¬ DescribesA e x
  disjApre : ∀ d ∈ S, ∀ s ∈ st0.services, s.node.id = node.id →
    (s.name, s.version) ≠ (d.name, d.version) → ∀ x, DescribesA d x → ¬ RecordsA s x
  disjAold : ∀ s t, s ∈ st0.services → t ∈ st0.services → s.node.id = node.id →
    t.node.id = node.id → (s.name, s.version) ≠ (t.name, t.version) →
    ∀ x, RecordsA s x → ¬ RecordsA t x
  disjEdd : ∀ d ∈ S, ∀ e ∈ S, (d.name, d.version) ≠ (e.name, e.version) →
    ∀ x, DescribesE d x → ¬ DescribesE e x
  disjEpre : ∀ d ∈ S, ∀ s ∈ st0.services, s.node.id = node.id →
    (s.name, s.version) ≠ (d.name, d.version) → ∀ x, DescribesE d x → ¬ RecordsE s x
  disjEold : ∀ s t, s ∈ st0.services → t ∈ st0.services → s.node.id = node.id →
    t.node.id = node.id → (s.name, s.version) ≠ (t.name, t.version) →
    ∀ x, RecordsE s x → ¬ RecordsE t x

/-- Mid-reconciliation invariant of the per-descriptor pass: the prefix `P` of
the snapshot has been processed on top of the prior state `st0`. -/
structure Mid (st0 : Registry) (node : Node) (P : List ServiceDesc)
    (st : Registry) : Prop where
  othersvc : ∀ s : ServiceItem, s.node.id ≠ node.id →
    (s ∈ st.services ↔ s ∈ st0.services)
  uniq : st.services.Pairwise (keyRel node)
  nodeIdIff : ∀ s ∈ st.services, s.node.id = node.id ↔ s.node = node
  nodeRefIff : ∀ s ∈ st.services, s.node.ref = node.ref ↔ s.node = node
  untouched : ∀ s ∈ st.services, s.node.id = node.id →
    (s.name, s.version) ∉ P.map (fun d => (d.name, d.version)) → s ∈ st0.services
  kept : ∀ s ∈ st0.services, s.node.id = node.id →
    (s.name, s.version) ∉ P.map (fun d => (d.name, d.version)) → s ∈ st.services
  keys : ∀ k, HasService st k node.id ↔
    (HasService st0 k node.id ∨ k ∈ P.map (fun d => (d.name, d.version)))
  mapsA : ∀ s ∈ st.services, s.node.id = node.id → ∀ d ∈ P,
    (s.name, s.version) = (d.name, d.version) →
    ∀ x, RecordsA s x ↔ (PriorA st0 node (d.name, d.version) x ∨ DescribesA d x)
  mapsE : ∀ s ∈ st.services, s.node.id = node.id → ∀ d ∈ P,
    (s.name, s.version) = (d.name, d.version) →
    ∀ x, RecordsE s x ↔ (PriorE st0 node (d.name, d.version) x ∨ DescribesE d x)
  catA : ∀ x, HasActionEp st x node.id ↔
    ((∃ d ∈ P, DescribesA d x) ∨
      (HasActionEp st0 x node.id ∧ ¬ ∃ d ∈ P, ClearsA st0 node d x))
  catE : ∀ x, HasEventEp st x node.id ↔
    ((∃ d ∈ P, DescribesE d x) ∨
      (HasEventEp st0 x node.id ∧ ¬ ∃ d ∈ P, ClearsE st0 node d x))
  frameA : ∀ nid, nid ≠ node.id → ∀ x, HasActionEp st x nid ↔ HasActionEp st0 x nid
  frameE : ∀ nid, nid ≠ node.id → ∀ x, HasEventEp st x nid ↔ HasEventEp st0 x nid

theorem mid_init (st0 : Registry) (node : Node)
    (hR : ReconcileOK st0 node S) : Mid st0 node [] st0 := by
  refine ⟨?_, hR.uniq, hR.nodeIdIff, hR.nodeRefIff, ?_, ?_, ?_, ?_, ?_, ?_, ?_, ?_, ?_⟩
  · intro s _; exact Iff.rfl
  · intro s hs _ _; exact hs
  · intro s hs _ _; exact hs
  · intro k
    simp
  · intro s _ _ d hd; cases hd
  · intro s _ _ d hd; cases hd
  · intro x
    simp
  · intro x
    simp
  · intro nid _ x; exact Iff.rfl
  · intro nid _ x; exact Iff.rfl

theorem exists_mem_append {l1 l2 : List α} {p : α → Prop} :
    (∃ x ∈ l1 ++ l2, p x) ↔ ((∃ x ∈ l1, p x) ∨ (∃ x ∈ l2, p x)) := by
  constructor
  · rintro ⟨x, hx, hp⟩
    rcases List.mem_append.mp hx with h | h
    · exact Or.inl ⟨x, h, hp⟩
    · exact Or.inr ⟨x, h, hp⟩
  · rintro (⟨x, hx, hp⟩ | ⟨x, hx, hp⟩)
    · exact ⟨x, List.mem_append.mpr (Or.inl hx), hp⟩
    · exact ⟨x, List.mem_append.mpr (Or.inr hx), hp⟩

theorem exists_mem_singleton {a : α} {p : α → Prop} :
    (∃ x ∈ [a], p x) ↔ p a := by
  constructor
  · rintro ⟨x, hx, hp⟩
    rcases List.mem_singleton.mp hx with rfl
    exact hp
  · intro hp
    exact ⟨a, List.mem_singleton.mpr rfl, hp⟩

theorem processDesc_none_eq {node : Node} {d : ServiceDesc} {st : Registry}
    {mA : List (String × ActionD)} {mE : List (String × EventD)}
    (hmA : d.actions = some mA) (hmE : d.events = some mE)
    (hfind : svcFind d.name d.version node.id st = none) :
    processDesc node d st = Except.ok
      (registerEvents node (d.name, d.version, node.id) mE
        (registerActions node (d.name, d.version, node.id) mA
          (servicesAdd node d.name d.version d.settings st))) := by
  simp only [processDesc, hfind, hmA, hmE]

theorem processDesc_found_eq {node : Node} {d : ServiceDesc} {st : Registry}
    {s : ServiceItem} {mA : List (String × ActionD)} {mE : List (String × EventD)}
    (hmA : d.actions = some mA) (hmE : d.events = some mE)
    (hfind : svcFind d.name d.version node.id st = some s) :
    processDesc node d st = Except.ok
      (sweepOldE node mE s.events
        (registerEvents node (d.name, d.version, node.id) mE
          (sweepOldA node mA s.actions
            (registerActions node (d.name, d.version, node.id) mA
              (serviceUpdate d.name d.version node.id d.settings st))))) := by
  simp only [processDesc, hfind, hmA, hmE, removeOldActions_ok, removeOldEvents_ok]

theorem mid_step_new {st0 : Registry} {node : Node} {S P rest : List ServiceDesc}
    {d : ServiceDesc} {st : Registry} {mA : List (String × ActionD)}
    {mE : List (String × EventD)}
    (hR : ReconcileOK st0 node S) (hS : S = P ++ d :: rest) (hM : Mid st0 node P st)
    (hmA : d.actions = some mA) (hmE : d.events = some mE)
    (hfind : svcFind d.name d.version node.id st = none) :
    Mid st0 node (P ++ [d])
      (registerEvents node (d.name, d.version, node.id) mE
        (registerActions node (d.name, d.version, node.id) mA
          (servicesAdd node d.name d.version d.settings st))) := by
  have hdS : d ∈ S := by rw [hS]; exact List.mem_append_right _ (List.mem_cons_self _ _)
  have hnodup := hR.keysNodup
  rw [hS, List.map_append, List.map_cons] at hnodup
  have hdisj := (List.nodup_append.mp hnodup).2.2
  have hkeynotP : (d.name, d.version) ∉ P.map (fun e => (e.name, e.version)) :=
    fun hmem => hdisj hmem (List.mem_cons_self _ _)
  have hkeyPne : ∀ e ∈ P, (e.name, e.version) ≠ (d.name, d.version) :=
    fun e he heq => hkeynotP (heq ▸ List.mem_map.mpr ⟨e, he, rfl⟩)
  have hKNA : ∀ p ∈ mA, p.2.name = p.1 := by
    have h := hR.keyNamesA d hdS
    rw [hmA] at h
    exact h
  have hKNE : ∀ p ∈ mE, p.2.name = p.1 := by
    have h := hR.keyNamesE d hdS
    rw [hmE] at h
    exact h
  have hnamesA : mA.map (fun p => p.2.name) = mA.map Prod.fst := List.map_congr_left hKNA
  have hnamesE : mE.map (fun p => p.2.name) = mE.map Prod.fst := List.map_congr_left hKNE
  have hDA := describesA_iff hmA
  have hDE := describesE_iff hmE
  have hnomatch : ∀ t ∈ st.services, predSkey (d.name, d.version, node.id) t = false := by
    intro t ht
    have h := List.find?_eq_none.mp hfind t ht
    exact Bool.eq_false_iff.mpr h
  have hnop : ∀ s0 ∈ st0.services, s0.node.id = node.id →
      (s0.name, s0.version) ≠ (d.name, d.version) := by
    intro s0 hs0 hid heq
    have hkept : s0 ∈ st.services := hM.kept s0 hs0 hid (by rw [heq]; exact hkeynotP)
    have h := hnomatch s0 hkept
    rcases Prod.mk.injEq _ _ _ _ ▸ heq with ⟨h1, h2⟩
    rw [predSkey] at h
    simp only [decide_eq_true_eq] at h
    rw [decide_eq_false_iff_not] at h
    exact h ⟨h1, h2, hid⟩
  have hnoPriorA : ∀ x, ¬ PriorA st0 node (d.name, d.version) x := by
    rintro x ⟨s0, hs0, hid, hkey, _⟩
    exact hnop s0 hs0 hid hkey
  have hnoPriorE : ∀ x, ¬ PriorE st0 node (d.name, d.version) x := by
    rintro x ⟨s0, hs0, hid, hkey, _⟩
    exact hnop s0 hs0 hid hkey
  set newItem : ServiceItem :=
    ⟨node, d.name, d.version, d.settings,
      mA.foldl (fun acc p => assocUpsertA p.2 acc) [],
      mE.foldl (fun acc p => assocUpsertE p.2 acc) []⟩ with hnewItem
  set stM := registerEvents node (d.name, d.version, node.id) mE
    (registerActions node (d.name, d.version, node.id) mA
      (servicesAdd node d.name d.version d.settings st)) with hstM
  have hpredfresh : predSkey (d.name, d.version, node.id)
      (⟨node, d.name, d.version, d.settings, [], []⟩ : ServiceItem) = true := by
    rw [predSkey]
    exact decide_eq_true ⟨rfl, rfl, rfl⟩
  have haddserv : (servicesAdd node d.name d.version d.settings st).services =
      st.services ++ [⟨node, d.name, d.version, d.settings, [], []⟩] := rfl
  have hserv : stM.services = st.services ++ [newItem] := by
    rw [hstM, registerEvents_services_eq, registerActions_services_eq, haddserv,
      updateFirst_append_of_none hnomatch]
    have h1 : updateFirst (predSkey (d.name, d.version, node.id))
        (fun t => List.foldl (fun t p => { t with actions := assocUpsertA p.2 t.actions }) t mA)
        [(⟨node, d.name, d.version, d.settings, [], []⟩ : ServiceItem)] =
        [{ (⟨node, d.name, d.version, d.settings, [], []⟩ : ServiceItem) with
            actions := mA.foldl (fun acc p => assocUpsertA p.2 acc) [] }] := by
      rw [updateFirst, if_pos hpredfresh, foldUpdA_spec]
    rw [h1, updateFirst_append_of_none hnomatch]
    have h2 : updateFirst (predSkey (d.name, d.version, node.id))
        (fun t => List.foldl (fun t p => { t with events := assocUpsertE p.2 t.events }) t mE)
        [{ (⟨node, d.name, d.version, d.settings, [], []⟩ : ServiceItem) with
            actions := mA.foldl (fun acc p => assocUpsertA p.2 acc) [] }] =
        [newItem] := by
      rw [updateFirst, if_pos (by rw [predSkey]; exact decide_eq_true ⟨rfl, rfl, rfl⟩),
        foldUpdE_spec]
    rw [h2]
  have hmem : ∀ t, t ∈ stM.services ↔ (t ∈ st.services ∨ t = newItem) := by
    intro t
    rw [hserv, List.mem_append, List.mem_singleton]
  have hrecNewA : ∀ x, RecordsA newItem x ↔ DescribesA d x := by
    intro x
    rw [hDA]
    show x ∈ (mA.foldl (fun acc p => assocUpsertA p.2 acc) []).map Prod.fst ↔ _
    rw [mem_keys_foldUpsertA, hnamesA]
    simp
  have hrecNewE : ∀ x, RecordsE newItem x ↔ DescribesE d x := by
    intro x
    rw [hDE]
    show x ∈ (mE.foldl (fun acc p => assocUpsertE p.2 acc) []).map Prod.fst ↔ _
    rw [mem_keys_foldUpsertE, hnamesE]
    simp
  have hcatA : ∀ x nid, HasActionEp stM x nid ↔
      (HasActionEp st x nid ∨ (nid = node.id ∧ x ∈ mA.map Prod.fst)) := by
    intro x nid
    rw [hstM, hasActionEp_registerEvents, hasActionEp_registerActions, hnamesA]
    exact Iff.rfl
  have hcatE : ∀ x nid, HasEventEp stM x nid ↔
      (HasEventEp st x nid ∨ (nid = node.id ∧ x ∈ mE.map Prod.fst)) := by
    intro x nid
    rw [hstM, hasEventEp_registerEvents, hasEventEp_registerActions, hnamesE]
    exact Iff.rfl
  have hkeysPd : ∀ k, k ∈ (P ++ [d]).map (fun e => (e.name, e.version)) ↔
      (k ∈ P.map (fun e => (e.name, e.version)) ∨ k = (d.name, d.version)) := by
    intro k
    rw [List.map_append, List.map_cons, List.map_nil, List.mem_append,
      List.mem_singleton]
  refine ⟨?_, ?_, ?_, ?_, ?_, ?_, ?_, ?_, ?_, ?_, ?_, ?_, ?_⟩
  · -- othersvc
    intro t htid
    rw [hmem]
    constructor
    · rintro (h | rfl)
      · exact (hM.othersvc t htid).mp h
      · exact absurd rfl htid
    · intro h
      exact Or.inl ((hM.othersvc t htid).mpr h)
  · -- uniq
    rw [hserv]
    apply List.pairwise_append.mpr
    refine ⟨hM.uniq, List.pairwise_singleton _ _, ?_⟩
    intro a ha b hb
    rcases List.mem_singleton.mp hb with rfl
    intro haid _ heq
    have h := hnomatch a ha
    rw [predSkey] at h
    rw [decide_eq_false_iff_not] at h
    rcases Prod.mk.injEq _ _ _ _ ▸ heq with ⟨h1, h2⟩
    exact h ⟨h1, h2, haid⟩
  · -- nodeIdIff
    intro t ht
    rcases (hmem t).mp ht with h | rfl
    · exact hM.nodeIdIff t h
    · exact ⟨fun _ => rfl, fun _ => rfl⟩
  · -- nodeRefIff
    intro t ht
    rcases (hmem t).mp ht with h | rfl
    · exact hM.nodeRefIff t h
    · exact ⟨fun _ => rfl, fun _ => rfl⟩
  · -- untouched
    intro t ht htid hknot
    rw [hkeysPd] at hknot
    rcases (hmem t).mp ht with h | rfl
    · exact hM.untouched t h htid (fun hmem2 => hknot (Or.inl hmem2))
    · exact absurd (Or.inr rfl) hknot
  · -- kept
    intro t ht htid hknot
    rw [hkeysPd] at hknot
    exact (hmem t).mpr (Or.inl (hM.kept t ht htid (fun hmem2 => hknot (Or.inl hmem2))))
  · -- keys
    intro k
    have h1 : HasService stM k node.id ↔
        (HasService st k node.id ∨ k = (d.name, d.version)) := by
      constructor
      · rintro ⟨t, ht, hid, hk⟩
        rcases (hmem t).mp ht with h | rfl
        · exact Or.inl ⟨t, h, hid, hk⟩
        · exact Or.inr hk.symm
      · rintro (⟨t, ht, hid, hk⟩ | rfl)
        · exact ⟨t, (hmem t).mpr (Or.inl ht), hid, hk⟩
        · exact ⟨newItem, (hmem newItem).mpr (Or.inr rfl), rfl, rfl⟩
    rw [h1, hM.keys k, hkeysPd k]
    tauto
  · -- mapsA
    intro t ht htid e he hkeq x
    rcases List.mem_append.mp he with heP | heD
    · have hne : t ≠ newItem := by
        intro hteq
        have : (t.name, t.version) = (d.name, d.version) := by rw [hteq]
        exact hkeyPne e heP (hkeq ▸ this)
      rcases (hmem t).mp ht with h | h
      · exact hM.mapsA t h htid e heP hkeq x
      · exact absurd h hne
    · rcases List.mem_singleton.mp heD with rfl
      rcases (hmem t).mp ht with h | rfl
      · exfalso
        have hp := hnomatch t h
        rw [predSkey, decide_eq_false_iff_not] at hp
        rcases Prod.mk.injEq _ _ _ _ ▸ hkeq with ⟨h1, h2⟩
        exact hp ⟨h1, h2, htid⟩
      · rw [hrecNewA x]
        constructor
        · exact Or.inr
        · rintro (hp | hd)
          · exact absurd hp (hnoPriorA x)
          · exact hd
  · -- mapsE
    intro t ht htid e he hkeq x
    rcases List.mem_append.mp he with heP | heD
    · have hne : t ≠ newItem := by
        intro hteq
        have : (t.name, t.version) = (d.name, d.version) := by rw [hteq]
        exact hkeyPne e heP (hkeq ▸ this)
      rcases (hmem t).mp ht with h | h
      · exact hM.mapsE t h htid e heP hkeq x
      · exact absurd h hne
    · rcases List.mem_singleton.mp heD with rfl
      rcases (hmem t).mp ht with h | rfl
      · exfalso
        have hp := hnomatch t h
        rw [predSkey, decide_eq_false_iff_not] at hp
        rcases Prod.mk.injEq _ _ _ _ ▸ hkeq with ⟨h1, h2⟩
        exact hp ⟨h1, h2, htid⟩
      · rw [hrecNewE x]
        constructor
        · exact Or.inr
        · rintro (hp | hd)
          · exact absurd hp (hnoPriorE x)
          · exact hd
  · -- catA
    intro x
    rw [hcatA x node.id, hM.catA x, exists_mem_append, exists_mem_append,
      exists_mem_singleton, exists_mem_singleton]
    have hCd : ¬ ClearsA st0 node d x := fun h => hnoPriorA x h.1
    have hDx := hDA x
    constructor
    · rintro (((hA | ⟨h0, hC⟩) | ⟨_, hk⟩))
      · exact Or.inl (Or.inl hA)
      · exact Or.inr ⟨h0, fun h => h.elim hC hCd⟩
      · exact Or.inl (Or.inr (hDx.mpr hk))
    · rintro ((hA | hd) | ⟨h0, hC⟩)
      · exact Or.inl (Or.inl hA)
      · exact Or.inr ⟨rfl, hDx.mp hd⟩
      · exact Or.inl (Or.inr ⟨h0, fun h => hC (Or.inl h)⟩)
  · -- catE
    intro x
    rw [hcatE x node.id, hM.catE x, exists_mem_append, exists_mem_append,
      exists_mem_singleton, exists_mem_singleton]
    have hCd : ¬ ClearsE st0 node d x := fun h => hnoPriorE x h.1
    have hDx := hDE x
    constructor
    · rintro (((hA | ⟨h0, hC⟩) | ⟨_, hk⟩))
      · exact Or.inl (Or.inl hA)
      · exact Or.inr ⟨h0, fun h => h.elim hC hCd⟩
      · exact Or.inl (Or.inr (hDx.mpr hk))
    · rintro ((hA | hd) | ⟨h0, hC⟩)
      · exact Or.inl (Or.inl hA)
      · exact Or.inr ⟨rfl, hDx.mp hd⟩
      · exact Or.inl (Or.inr ⟨h0, fun h => hC (Or.inl h)⟩)
  · -- frameA
    intro nid hne x
    rw [hcatA x nid]
    have h1 : ¬(nid = node.id ∧ x ∈ mA.map Prod.fst) := fun h => hne h.1
    rw [or_iff_left h1]
    exact hM.frameA nid hne x
  · -- frameE
    intro nid hne x
    rw [hcatE x nid]
    have h1 : ¬(nid = node.id ∧ x ∈ mE.map Prod.fst) := fun h => hne h.1
    rw [or_iff_left h1]
    exact hM.frameE nid hne x

theorem mid_step_found {st0 : Registry} {node : Node} {S P rest : List ServiceDesc}
    {d : ServiceDesc} {st : Registry} {s : ServiceItem}
    {mA : List (String × ActionD)} {mE : List (String × EventD)}
    (hR : ReconcileOK st0 node S) (hS : S = P ++ d :: rest) (hM : Mid st0 node P st)
    (hmA : d.actions = some mA) (hmE : d.events = some mE)
    (hfind : svcFind d.name d.version node.id st = some s) :
    Mid st0 node (P ++ [d])
      (sweepOldE node mE s.events
        (registerEvents node (d.name, d.version, node.id) mE
          (sweepOldA node mA s.actions
            (registerActions node (d.name, d.version, node.id) mA
              (serviceUpdate d.name d.version node.id d.settings st))))) := by
  have hdS : d ∈ S := by rw [hS]; exact List.mem_append_right _ (List.mem_cons_self _ _)
  have hPS : ∀ e ∈ P, e ∈ S := fun e he => by rw [hS]; exact List.mem_append_left _ he
  have hnodup := hR.keysNodup
  rw [hS, List.map_append, List.map_cons] at hnodup
  have hdisj := (List.nodup_append.mp hnodup).2.2
  have hkeynotP : (d.name, d.version) ∉ P.map (fun e => (e.name, e.version)) :=
    fun hmem => hdisj hmem (List.mem_cons_self _ _)
  have hkeyPne : ∀ e ∈ P, (e.name, e.version) ≠ (d.name, d.version) :=
    fun e he heq => hkeynotP (heq ▸ List.mem_map.mpr ⟨e, he, rfl⟩)
  have hKNA : ∀ p ∈ mA, p.2.name = p.1 := by
    have h := hR.keyNamesA d hdS
    rw [hmA] at h
    exact h
  have hKNE : ∀ p ∈ mE, p.2.name = p.1 := by
    have h := hR.keyNamesE d hdS
    rw [hmE] at h
    exact h
  have hnamesA : mA.map (fun p => p.2.name) = mA.map Prod.fst := List.map_congr_left hKNA
  have hnamesE : mE.map (fun p => p.2.name) = mE.map Prod.fst := List.map_congr_left hKNE
  have hDA := describesA_iff hmA
  have hDE := describesE_iff hmE
  have hkeysPd : ∀ k, k ∈ (P ++ [d]).map (fun e => (e.name, e.version)) ↔
      (k ∈ P.map (fun e => (e.name, e.version)) ∨ k = (d.name, d.version)) := by
    intro k
    rw [List.map_append, List.map_cons, List.map_nil, List.mem_append,
      List.mem_singleton]
  have hsymm : Symmetric (keyRel node) :=
    fun a b h hb ha => (h ha hb).symm
  -- facts about the matched service record
  have hsmem : s ∈ st.services := List.mem_of_find?_eq_some hfind
  have hpred := List.find?_some hfind
  rw [predSkey, decide_eq_true_eq] at hpred
  rcases hpred with ⟨hsn, hsv, hsid⟩
  have hkey_s : (s.name, s.version) = (d.name, d.version) := by rw [hsn, hsv]
  have hs0 : s ∈ st0.services :=
    hM.untouched s hsmem hsid (by rw [hkey_s]; exact hkeynotP)
  set K : ServiceItem → ServiceItem := fun t =>
    { t with
      settings := d.settings,
      actions := mA.foldl (fun acc p => assocUpsertA p.2 acc) t.actions,
      events := mE.foldl (fun acc p => assocUpsertE p.2 acc) t.events } with hK
  set stM := sweepOldE node mE s.events
    (registerEvents node (d.name, d.version, node.id) mE
      (sweepOldA node mA s.actions
        (registerActions node (d.name, d.version, node.id) mA
          (serviceUpdate d.name d.version node.id d.settings st)))) with hstM
  have hservEq : stM.services =
      updateFirst (predSkey (d.name, d.version, node.id)) K st.services := by
    rw [hstM, sweepOldE_services, registerEvents_services_eq, sweepOldA_services,
      registerActions_services_eq]
    have hsu : (serviceUpdate d.name d.version node.id d.settings st).services =
        updateFirst (predSkey (d.name, d.version, node.id))
          (fun t => { t with settings := d.settings }) st.services := rfl
    rw [hsu]
    have hc1 := @updateFirst_updateFirst ServiceItem
      (predSkey (d.name, d.version, node.id))
      (fun t => List.foldl (fun (u : ServiceItem) (q : String × ActionD) =>
        { u with actions := assocUpsertA q.2 u.actions }) t mA)
      (fun t => { t with settings := d.settings })
      st.services (fun t => rfl)
    rw [hc1]
    have hc2 := @updateFirst_updateFirst ServiceItem
      (predSkey (d.name, d.version, node.id))
      (fun t => List.foldl (fun (u : ServiceItem) (q : String × EventD) =>
        { u with events := assocUpsertE q.2 u.events }) t mE)
      (fun t => List.foldl (fun (u : ServiceItem) (q : String × ActionD) =>
        { u with actions := assocUpsertA q.2 u.actions })
        { t with settings := d.settings } mA)
      st.services (fun t => by simp only [foldUpdA_spec]; rfl)
    rw [hc2]
    apply updateFirst_congr
    intro t
    simp only [foldUpdA_spec, foldUpdE_spec, hK]
  rcases updateFirst_split (f := K) hfind with ⟨l1, l2, hl, hnm1, hupd⟩
  have hserv : stM.services = l1 ++ K s :: l2 := by rw [hservEq, hupd]
  have hmemSt : ∀ t, t ∈ st.services ↔ (t ∈ l1 ∨ t = s ∨ t ∈ l2) := by
    intro t
    rw [hl, List.mem_append, List.mem_cons]
  have hmemM : ∀ t, t ∈ stM.services ↔ (t ∈ l1 ∨ t = K s ∨ t ∈ l2) := by
    intro t
    rw [hserv, List.mem_append, List.mem_cons]
  have hKnode : (K s).node = s.node := rfl
  have hKid : (K s).node.id = node.id := hsid
  have hKkey : ((K s).name, (K s).version) = (d.name, d.version) := hkey_s
  have hrecKA : ∀ x, RecordsA (K s) x ↔ (RecordsA s x ∨ DescribesA d x) := by
    intro x
    show x ∈ ((K s).actions.map Prod.fst) ↔ _
    rw [hK]
    show x ∈ ((mA.foldl (fun acc p => assocUpsertA p.2 acc) s.actions).map Prod.fst) ↔ _
    rw [mem_keys_foldUpsertA, hnamesA, hDA]
    exact Iff.rfl
  have hrecKE : ∀ x, RecordsE (K s) x ↔ (RecordsE s x ∨ DescribesE d x) := by
    intro x
    show x ∈ ((K s).events.map Prod.fst) ↔ _
    rw [hK]
    show x ∈ ((mE.foldl (fun acc p => assocUpsertE p.2 acc) s.events).map Prod.fst) ↔ _
    rw [mem_keys_foldUpsertE, hnamesE, hDE]
    exact Iff.rfl
  have hPxA : ∀ x, PriorA st0 node (d.name, d.version) x ↔ RecordsA s x := by
    intro x
    constructor
    · rintro ⟨s0, h0mem, h0id, h0key, h0rec⟩
      have hs0eq : s0 = s := by
        apply pairwise_key_unique hsymm hR.uniq h0mem hs0
        intro hrel
        exact (hrel h0id hsid) (h0key.trans hkey_s.symm)
      rw [← hs0eq]
      exact h0rec
    · intro hrec
      exact ⟨s, hs0, hsid, hkey_s, hrec⟩
  have hPxE : ∀ x, PriorE st0 node (d.name, d.version) x ↔ RecordsE s x := by
    intro x
    constructor
    · rintro ⟨s0, h0mem, h0id, h0key, h0rec⟩
      have hs0eq : s0 = s := by
        apply pairwise_key_unique hsymm hR.uniq h0mem hs0
        intro hrel
        exact (hrel h0id hsid) (h0key.trans hkey_s.symm)
      rw [← hs0eq]
      exact h0rec
    · intro hrec
      exact ⟨s, hs0, hsid, hkey_s, hrec⟩
  have hcatA : ∀ x nid, HasActionEp stM x nid ↔
      ((HasActionEp st x nid ∨ (nid = node.id ∧ x ∈ mA.map Prod.fst)) ∧
        ¬(nid = node.id ∧ x ∈ s.actions.map Prod.fst ∧ x ∉ mA.map Prod.fst)) := by
    intro x nid
    rw [hstM, hasActionEp_sweepOldE, hasActionEp_registerEvents,
      hasActionEp_sweepOldA, hasActionEp_registerActions, hnamesA]
    exact Iff.rfl
  have hcatE : ∀ x nid, HasEventEp stM x nid ↔
      ((HasEventEp st x nid ∨ (nid = node.id ∧ x ∈ mE.map Prod.fst)) ∧
        ¬(nid = node.id ∧ x ∈ s.events.map Prod.fst ∧ x ∉ mE.map Prod.fst)) := by
    intro x nid
    rw [hstM, hasEventEp_sweepOldE, hasEventEp_registerEvents,
      hasEventEp_sweepOldA, hasEventEp_registerActions, hnamesE]
    exact Iff.rfl
  have hprojEq : stM.services.map projT = st.services.map projT := by
    rw [hservEq]
    exact map_updateFirst (fun x => rfl)
  have hprojEq2 : stM.services.map svcProj = st.services.map svcProj := by
    rw [hservEq]
    exact map_updateFirst (fun x => rfl)
  -- elements of l1 and l2 are existing services, and no l1/l2 element carries the key
  have hl1mem : ∀ t ∈ l1, t ∈ st.services := fun t ht => (hmemSt t).mpr (Or.inl ht)
  have hl2mem : ∀ t ∈ l2, t ∈ st.services := fun t ht => (hmemSt t).mpr (Or.inr (Or.inr ht))
  have hl1nokey : ∀ t ∈ l1, t.node.id = node.id →
      (t.name, t.version) ≠ (d.name, d.version) := by
    intro t ht htid heq
    have h := hnm1 t ht
    rw [predSkey, decide_eq_false_iff_not] at h
    rcases Prod.mk.injEq _ _ _ _ ▸ heq with ⟨h1, h2⟩
    exact h ⟨h1, h2, htid⟩
  have hl2nokey : ∀ t ∈ l2, t.node.id = node.id →
      (t.name, t.version) ≠ (d.name, d.version) := by
    intro t ht htid heq
    have hpw := hM.uniq
    rw [hl] at hpw
    rcases List.pairwise_append.mp hpw with ⟨_, hpw2, _⟩
    rcases List.pairwise_cons.mp hpw2 with ⟨hs2, _⟩
    exact (hs2 t ht hsid htid) (hkey_s.trans heq.symm)
  refine ⟨?_, ?_, ?_, ?_, ?_, ?_, ?_, ?_, ?_, ?_, ?_, ?_, ?_⟩
  · -- othersvc
    intro t htid
    rw [hmemM t]
    constructor
    · rintro (h | rfl | h)
      · exact (hM.othersvc t htid).mp (hl1mem t h)
      · exact absurd hKid htid
      · exact (hM.othersvc t htid).mp (hl2mem t h)
    · intro h
      have hst : t ∈ st.services := (hM.othersvc t htid).mpr h
      rcases (hmemSt t).mp hst with h1 | rfl | h1
      · exact Or.inl h1
      · exact absurd hsid htid
      · exact Or.inr (Or.inr h1)
  · -- uniq
    exact pairwise_keyRel_transfer hprojEq.symm hM.uniq
  · -- nodeIdIff
    intro t ht
    rcases (hmemM t).mp ht with h | rfl | h
    · exact hM.nodeIdIff t (hl1mem t h)
    · exact hM.nodeIdIff s hsmem
    · exact hM.nodeIdIff t (hl2mem t h)
  · -- nodeRefIff
    intro t ht
    rcases (hmemM t).mp ht with h | rfl | h
    · exact hM.nodeRefIff t (hl1mem t h)
    · exact hM.nodeRefIff s hsmem
    · exact hM.nodeRefIff t (hl2mem t h)
  · -- untouched
    intro t ht htid hknot
    rw [hkeysPd] at hknot
    rcases (hmemM t).mp ht with h | rfl | h
    · exact hM.untouched t (hl1mem t h) htid (fun h2 => hknot (Or.inl h2))
    · exact absurd (Or.inr hKkey) hknot
    · exact hM.untouched t (hl2mem t h) htid (fun h2 => hknot (Or.inl h2))
  · -- kept
    intro t ht htid hknot
    rw [hkeysPd] at hknot
    have hst : t ∈ st.services := hM.kept t ht htid (fun h2 => hknot (Or.inl h2))
    rcases (hmemSt t).mp hst with h1 | rfl | h1
    · exact (hmemM t).mpr (Or.inl h1)
    · exact absurd (Or.inr hkey_s) hknot
    · exact (hmemM t).mpr (Or.inr (Or.inr h1))
  · -- keys
    intro k
    rw [hasService_of_proj_eq hprojEq2 k node.id, hM.keys k, hkeysPd k]
    constructor
    · rintro (h | h)
      · exact Or.inl h
      · exact Or.inr (Or.inl h)
    · rintro (h | h | rfl)
      · exact Or.inl h
      · exact Or.inr h
      · rcases (hM.keys (d.name, d.version)).mp ⟨s, hsmem, hsid, hkey_s⟩ with h | h
        · exact Or.inl h
        · exact Or.inr h
  · -- mapsA
    intro t ht htid e he hkeq x
    rcases List.mem_append.mp he with heP | heD
    · have hne : (t.name, t.version) ≠ (d.name, d.version) := by
        rw [hkeq]
        exact hkeyPne e heP
      rcases (hmemM t).mp ht with h | rfl | h
      · exact hM.mapsA t (hl1mem t h) htid e heP hkeq x
      · exact absurd hKkey hne
      · exact hM.mapsA t (hl2mem t h) htid e heP hkeq x
    · rcases List.mem_singleton.mp heD with rfl
      rcases (hmemM t).mp ht with h | rfl | h
      · exact absurd hkeq (hl1nokey t h htid)
      · rw [hrecKA x, hPxA x]
      · exact absurd hkeq (hl2nokey t h htid)
  · -- mapsE
    intro t ht htid e he hkeq x
    rcases List.mem_append.mp he with heP | heD
    · have hne : (t.name, t.version) ≠ (d.name, d.version) := by
        rw [hkeq]
        exact hkeyPne e heP
      rcases (hmemM t).mp ht with h | rfl | h
      · exact hM.mapsE t (hl1mem t h) htid e heP hkeq x
      · exact absurd hKkey hne
      · exact hM.mapsE t (hl2mem t h) htid e heP hkeq x
    · rcases List.mem_singleton.mp heD with rfl
      rcases (hmemM t).mp ht with h | rfl | h
      · exact absurd hkeq (hl1nokey t h htid)
      · rw [hrecKE x, hPxE x]
      · exact absurd hkeq (hl2nokey t h htid)
  · -- catA
    intro x
    have h1 := hcatA x node.id
    simp only [true_and, eq_self_iff_true] at h1
    rw [h1, hM.catA x, exists_mem_append, exists_mem_append,
      exists_mem_singleton, exists_mem_singleton]
    have hPDx : (∃ e ∈ P, DescribesA e x) → ¬ RecordsA s x := by
      rintro ⟨e, he, hde⟩
      refine hR.disjApre e (hPS e he) s hs0 hsid ?_ x hde
      rw [hkey_s]
      exact fun heq => hkeyPne e he heq.symm
    have hClears : ClearsA st0 node d x ↔ (RecordsA s x ∧ ¬ DescribesA d x) := by
      rw [ClearsA, hPxA x]
    have hDx := hDA x
    constructor
    · rintro ⟨h2, h3⟩
      by_cases hd : DescribesA d x
      · exact Or.inl (Or.inr hd)
      · have hdk : ¬ x ∈ mA.map Prod.fst := fun h => hd (hDx.mpr h)
        have hr : ¬ RecordsA s x := fun hr => h3 ⟨hr, hdk⟩
        rcases h2 with (hA | ⟨hB, hC⟩) | hDk
        · exact Or.inl (Or.inl hA)
        · refine Or.inr ⟨hB, ?_⟩
          rintro (h4 | h4)
          · exact hC h4
          · exact hr (hClears.mp h4).1
        · exact absurd hDk hdk
    · rintro ((hA | hd) | ⟨hB, hC⟩)
      · constructor
        · exact Or.inl (Or.inl hA)
        · rintro ⟨hPk, _⟩
          exact hPDx hA hPk
      · constructor
        · exact Or.inr (hDx.mp hd)
        · rintro ⟨_, hnd⟩
          exact hnd (hDx.mp hd)
      · constructor
        · exact Or.inl (Or.inr ⟨hB, fun h => hC (Or.inl h)⟩)
        · rintro ⟨hPk, hnd⟩
          exact hC (Or.inr (hClears.mpr ⟨hPk, fun h => hnd (hDx.mp h)⟩))
  · -- catE
    intro x
    have h1 := hcatE x node.id
    simp only [true_and, eq_self_iff_true] at h1
    rw [h1, hM.catE x, exists_mem_append, exists_mem_append,
      exists_mem_singleton, exists_mem_singleton]
    have hPDx : (∃ e ∈ P, DescribesE e x) → ¬ RecordsE s x := by
      rintro ⟨e, he, hde⟩
      refine hR.disjEpre e (hPS e he) s hs0 hsid ?_ x hde
      rw [hkey_s]
      exact fun heq => hkeyPne e he heq.symm
    have hClears : ClearsE st0 node d x ↔ (RecordsE s x ∧ ¬ DescribesE d x) := by
      rw [ClearsE, hPxE x]
    have hDx := hDE x
    constructor
    · rintro ⟨h2, h3⟩
      by_cases hd : DescribesE d x
      · exact Or.inl (Or.inr hd)
      · have hdk : ¬ x ∈ mE.map Prod.fst := fun h => hd (hDx.mpr h)
        have hr : ¬ RecordsE s x := fun hr => h3 ⟨hr, hdk⟩
        rcases h2 with (hA | ⟨hB, hC⟩) | hDk
        · exact Or.inl (Or.inl hA)
        · refine Or.inr ⟨hB, ?_⟩
          rintro (h4 | h4)
          · exact hC h4
          · exact hr (hClears.mp h4).1
        · exact absurd hDk hdk
    · rintro ((hA | hd) | ⟨hB, hC⟩)
      · constructor
        · exact Or.inl (Or.inl hA)
        · rintro ⟨hPk, _⟩
          exact hPDx hA hPk
      · constructor
        · exact Or.inr (hDx.mp hd)
        · rintro ⟨_, hnd⟩
          exact hnd (hDx.mp hd)
      · constructor
        · exact Or.inl (Or.inr ⟨hB, fun h => hC (Or.inl h)⟩)
        · rintro ⟨hPk, hnd⟩
          exact hC (Or.inr (hClears.mpr ⟨hPk, fun h => hnd (hDx.mp h)⟩))
  · -- frameA
    intro nid hne x
    rw [hcatA x nid]
    have h1 : ¬(nid = node.id ∧ x ∈ mA.map Prod.fst) := fun h => hne h.1
    have h2 : ¬(nid = node.id ∧ x ∈ s.actions.map Prod.fst ∧ x ∉ mA.map Prod.fst) :=
      fun h => hne h.1
    rw [or_iff_left h1, and_iff_left h2]
    exact hM.frameA nid hne x
  · -- frameE
    intro nid hne x
    rw [hcatE x nid]
    have h1 : ¬(nid = node.id ∧ x ∈ mE.map Prod.fst) := fun h => hne h.1
    have h2 : ¬(nid = node.id ∧ x ∈ s.events.map Prod.fst ∧ x ∉ mE.map Prod.fst) :=
      fun h => hne h.1
    rw [or_iff_left h1, and_iff_left h2]
    exact hM.frameE nid hne x

/-- Phase 1 of `registerServices`: the per-descriptor fold never throws under
`ReconcileOK` and establishes the `Mid` invariant for the whole snapshot. -/
theorem phase1_fold {st0 : Registry} {node : Node} {S : List ServiceDesc}
    (hR : ReconcileOK st0 node S) :
    ∀ (rest P : List ServiceDesc) (st : Registry), S = P ++ rest →
      Mid st0 node P st →
      ∃ st1, rest.foldlM (fun st svc => processDesc node svc st) st = Except.ok st1 ∧
        Mid st0 node S st1 := by
  intro rest
  induction rest with
  | nil =>
    intro P st hS hM
    refine ⟨st, rfl, ?_⟩
    rw [hS, List.append_nil]
    exact hM
  | cons d rest ih =>
    intro P st hS hM
    have hdS : d ∈ S := by
      rw [hS]; exact List.mem_append_right _ (List.mem_cons_self _ _)
    rcases Option.isSome_iff_exists.mp (hR.descActs d hdS) with ⟨mA, hmA⟩
    rcases Option.isSome_iff_exists.mp (hR.descEvts d hdS) with ⟨mE, hmE⟩
    have hS2 : S = (P ++ [d]) ++ rest := by
      rw [List.append_assoc]; exact hS
    cases hfind : svcFind d.name d.version node.id st with
    | none =>
      have hpd := processDesc_none_eq hmA hmE hfind
      have hMd := mid_step_new hR hS hM hmA hmE hfind
      have hfold : (d :: rest).foldlM (fun st svc => processDesc node svc st) st =
          rest.foldlM (fun st svc => processDesc node svc st)
            (registerEvents node (d.name, d.version, node.id) mE
              (registerActions node (d.name, d.version, node.id) mA
                (servicesAdd node d.name d.version d.settings st))) := by
        rw [List.foldlM_cons, hpd]
        rfl
      rcases ih (P ++ [d]) _ hS2 hMd with ⟨st1, hst1, hM1⟩
      exact ⟨st1, hfold.trans hst1, hM1⟩
    | some s =>
      have hpd := processDesc_found_eq hmA hmE hfind
      have hMd := mid_step_found hR hS hM hmA hmE hfind
      have hfold : (d :: rest).foldlM (fun st svc => processDesc node svc st) st =
          rest.foldlM (fun st svc => processDesc node svc st)
            (sweepOldE node mE s.events
              (registerEvents node (d.name, d.version, node.id) mE
                (sweepOldA node mA s.actions
                  (registerActions node (d.name, d.version, node.id) mA
                    (serviceUpdate d.name d.version node.id d.settings st))))) := by
        rw [List.foldlM_cons, hpd]
        rfl
      rcases ih (P ++ [d]) _ hS2 hMd with ⟨st1, hst1, hM1⟩
      exact ⟨st1, hfold.trans hst1, hM1⟩

/-- A recorded service is stale for the phase-2 sweep: it is owned by the node
and its identity is absent from the incoming snapshot. -/
def Stale (node : Node) (S : List ServiceDesc) (t : ServiceItem) : Prop :=
  t.node.id = node.id ∧ (t.name, t.version) ∉ S.map (fun d => (d.name, d.version))

instance (node : Node) (S : List ServiceDesc) (t : ServiceItem) :
    Decidable (Stale node S t) := by
  unfold Stale; infer_instance

/-- Removing a node's endpoints for every key of an association map, at the
catalog level. -/
theorem catHasEp_foldRemove {nid : String} {β : Type} (l : List (String × β))
    (cat : List (EndpointList α)) (b m : String) :
    CatHasEp (l.foldl (fun c p => epCatalogRemove p.1 nid c) cat) b m ↔
      (CatHasEp cat b m ∧ ¬(b ∈ l.map Prod.fst ∧ m = nid)) := by
  induction l generalizing cat with
  | nil =>
    simp only [List.foldl_nil, List.map_nil, List.not_mem_nil, false_and, not_false_iff,
      and_true]
  | cons p ps ih =>
    rw [List.foldl_cons]
    rw [ih (epCatalogRemove p.1 nid cat)]
    rw [catHasEp_epCatalogRemove, List.map_cons, List.mem_cons]
    tauto

/-- Invariant of the phase-2 sweep after the snapshot prefix `Q` has been
scanned: exactly the stale services of `Q` (and their endpoint records) are
gone from the accumulator. -/
structure Sweep (st1 : Registry) (node : Node) (S : List ServiceDesc)
    (Q : List ServiceItem) (acc : Registry) : Prop where
  mem : ∀ u, u ∈ acc.services ↔
    (u ∈ st1.services ∧ ¬(Stale node S u ∧ u ∈ Q))
  sub : acc.services.Sublist st1.services
  catA : ∀ x, HasActionEp acc x node.id ↔
    (HasActionEp st1 x node.id ∧ ¬∃ t ∈ Q, Stale node S t ∧ RecordsA t x)
  catE : ∀ x, HasEventEp acc x node.id ↔
    (HasEventEp st1 x node.id ∧ ¬∃ t ∈ Q, Stale node S t ∧ RecordsE t x)
  frameA : ∀ nid, nid ≠ node.id → ∀ x, HasActionEp acc x nid ↔ HasActionEp st1 x nid
  frameE : ∀ nid, nid ≠ node.id → ∀ x, HasEventEp acc x nid ↔ HasEventEp st1 x nid

theorem sweep_init (st1 : Registry) (node : Node) (S : List ServiceDesc) :
    Sweep st1 node S [] st1 := by
  refine ⟨?_, List.Sublist.refl _, ?_, ?_, ?_, ?_⟩
  · intro u
    simp
  · intro x
    simp
  · intro x
    simp
  · intro nid _ x; exact Iff.rfl
  · intro nid _ x; exact Iff.rfl

/-- A snapshot entry that is not stale leaves the sweep accumulator unchanged
in the invariant. -/
theorem sweep_extend_skip {st1 : Registry} {node : Node} {S : List ServiceDesc}
    {Q : List ServiceItem} {t : ServiceItem} {acc : Registry}
    (hSw : Sweep st1 node S Q acc) (hnost : ¬ Stale node S t) :
    Sweep st1 node S (Q ++ [t]) acc := by
  have hQt : ∀ u : ServiceItem, (Stale node S u ∧ u ∈ Q ++ [t]) ↔
      (Stale node S u ∧ u ∈ Q) := by
    intro u
    constructor
    · rintro ⟨hs, hq⟩
      rcases List.mem_append.mp hq with h | h
      · exact ⟨hs, h⟩
      · rcases List.mem_singleton.mp h with rfl
        exact absurd hs hnost
    · rintro ⟨hs, hq⟩
      exact ⟨hs, List.mem_append.mpr (Or.inl hq)⟩
  refine ⟨?_, hSw.sub, ?_, ?_, hSw.frameA, hSw.frameE⟩
  · intro u
    rw [hSw.mem u, hQt u]
  · intro x
    rw [hSw.catA x]
    have h1 : (∃ u ∈ Q ++ [t], Stale node S u ∧ RecordsA u x) ↔
        ((∃ u ∈ Q, Stale node S u ∧ RecordsA u x) ∨
          (Stale node S t ∧ RecordsA t x)) := by
      rw [exists_mem_append, exists_mem_singleton]
    rw [h1, or_iff_left (fun h => hnost h.1)]
  · intro x
    rw [hSw.catE x]
    have h1 : (∃ u ∈ Q ++ [t], Stale node S u ∧ RecordsE u x) ↔
        ((∃ u ∈ Q, Stale node S u ∧ RecordsE u x) ∨
          (Stale node S t ∧ RecordsE t x)) := by
      rw [exists_mem_append, exists_mem_singleton]
    rw [h1, or_iff_left (fun h => hnost h.1)]

/-- For a truthy (non-empty) node id, `unregisterService` removes exactly at
that id: the `nodeID || this.broker.nodeID` defaulting does not fire. -/
theorem unregisterService_some_ne {name : SvcName} {version : SvcVer}
    {nid : String} (h : nid ≠ "") (st : Registry) :
    unregisterService name version (some nid) st =
      servicesRemove name version nid st := by
  simp only [unregisterService, defaultNodeId, if_neg h]

/-- One step of the phase-2 sweep preserves the invariant: an entry of other
nodes or one present in the snapshot is skipped, a stale entry is removed
together with its endpoint records.  The node's id must be truthy, so that
the removal targets the node itself rather than the broker. -/
theorem sweep_step {st0 st1 : Registry} {node : Node} {S : List ServiceDesc}
    {Q R : List ServiceItem} {t : ServiceItem} {acc : Registry}
    (hid0 : node.id ≠ "")
    (hM : Mid st0 node S st1) (hsplit : st1.services = Q ++ t :: R)
    (hSw : Sweep st1 node S Q acc) :
    Sweep st1 node S (Q ++ [t]) (phase2step node S acc t) := by
  have ht1 : t ∈ st1.services := by
    rw [hsplit]; exact List.mem_append_right _ (List.mem_cons_self _ _)
  have hanyIff : S.any (fun svc =>
      decide (t.name = svc.name ∧ t.version = svc.version)) = true ↔
      (t.name, t.version) ∈ S.map (fun d => (d.name, d.version)) := by
    rw [List.any_eq_true]
    constructor
    · rintro ⟨svc, hsvc, hdec⟩
      rw [decide_eq_true_eq] at hdec
      exact List.mem_map.mpr ⟨svc, hsvc, by rw [← hdec.1, ← hdec.2]⟩
    · intro hmem
      rcases List.mem_map.mp hmem with ⟨svc, hsvc, heq⟩
      rcases Prod.mk.injEq _ _ _ _ ▸ heq with ⟨h1, h2⟩
      exact ⟨svc, hsvc, by rw [decide_eq_true_eq]; exact ⟨h1.symm, h2.symm⟩⟩
  by_cases href : t.node.ref ≠ node.ref
  · -- the entry belongs to another node object: skipped, and not stale
    have hnid : t.node.id ≠ node.id := fun hid =>
      href (by rw [(hM.nodeIdIff t ht1).mp hid])
    have hnost : ¬ Stale node S t := fun hs => hnid hs.1
    rw [phase2step, if_pos href]
    exact sweep_extend_skip hSw hnost
  · by_cases hany : S.any (fun svc =>
        decide (t.name = svc.name ∧ t.version = svc.version)) = true
    · -- the identity is present in the snapshot: skipped, and not stale
      have hnost : ¬ Stale node S t := fun hs => hs.2 (hanyIff.mp hany)
      rw [phase2step, if_neg href, if_pos hany]
      exact sweep_extend_skip hSw hnost
    · -- stale entry: it is removed with its endpoint records
      have hrefeq : t.node.ref = node.ref := not_not.mp href
      have htid : t.node.id = node.id :=
        (hM.nodeIdIff t ht1).mpr ((hM.nodeRefIff t ht1).mp hrefeq)
      have hnotmem : (t.name, t.version) ∉ S.map (fun d => (d.name, d.version)) :=
        fun hmem => hany (hanyIff.mpr hmem)
      have hst : Stale node S t := ⟨htid, hnotmem⟩
      have hsymm : Symmetric (keyRel node) := fun a b h hb ha => (h ha hb).symm
      have hpw1 : st1.services.Pairwise (keyRel node) := hM.uniq
      have htQ : t ∉ Q := by
        intro hQ
        have hpw' := hpw1
        rw [hsplit] at hpw'
        exact ((List.pairwise_append.mp hpw').2.2 t hQ t
          (List.mem_cons_self _ _)) htid htid rfl
      have hpt : predSkey (t.name, t.version, node.id) t = true := by
        rw [predSkey, decide_eq_true_eq]
        exact ⟨rfl, rfl, htid⟩
      have huniq : ∀ v ∈ st1.services,
          predSkey (t.name, t.version, node.id) v = true → v = t := by
        intro v hv hpv
        rw [predSkey, decide_eq_true_eq] at hpv
        apply pairwise_key_unique hsymm hpw1 hv ht1
        intro hrel
        exact (hrel hpv.2.2 htid) (by rw [hpv.1, hpv.2.1])
      have htacc : t ∈ acc.services :=
        (hSw.mem t).mpr ⟨ht1, fun h => htQ h.2⟩
      have hfindSvc : svcFind t.name t.version node.id acc = some t := by
        rw [svcFind]
        exact find?_eq_some_of_unique htacc hpt
          (fun v hv => huniq v ((hSw.mem v).mp hv).1)
      have hsvcs : (servicesRemove t.name t.version node.id acc).services =
          removeFirst (predSkey (t.name, t.version, node.id)) acc.services := by
        simp only [servicesRemove, hfindSvc]
      have hacts : (servicesRemove t.name t.version node.id acc).actions =
          t.actions.foldl (fun c q => epCatalogRemove q.1 node.id c) acc.actions := by
        simp only [servicesRemove, hfindSvc]
      have hevts : (servicesRemove t.name t.version node.id acc).events =
          t.events.foldl (fun c q => epCatalogRemove q.1 node.id c) acc.events := by
        simp only [servicesRemove, hfindSvc]
      have hstep : phase2step node S acc t = servicesRemove t.name t.version node.id acc := by
        rw [phase2step, if_neg href, if_neg hany, unregisterService_some_ne hid0]
      rw [hstep]
      have hpw2 : acc.services.Pairwise (fun a b =>
          ¬(predSkey (t.name, t.version, node.id) a = true ∧
            predSkey (t.name, t.version, node.id) b = true)) := by
        have hpwacc : acc.services.Pairwise (keyRel node) := hpw1.sublist hSw.sub
        refine hpwacc.imp ?_
        intro a b hk ⟨hpa, hpb⟩
        rw [predSkey, decide_eq_true_eq] at hpa hpb
        exact (hk hpa.2.2 hpb.2.2) (by rw [hpa.1, hpa.2.1, hpb.1, hpb.2.1])
      refine ⟨?_, ?_, ?_, ?_, ?_, ?_⟩
      · intro u
        rw [hsvcs, mem_removeFirst_iff hpw2 u, hSw.mem u]
        constructor
        · rintro ⟨⟨hu1, hnQ⟩, hpu⟩
          refine ⟨hu1, ?_⟩
          rintro ⟨hsu, humem⟩
          rcases List.mem_append.mp humem with h | h
          · exact hnQ ⟨hsu, h⟩
          · rcases List.mem_singleton.mp h with rfl
            rw [hpt] at hpu
            exact Bool.noConfusion hpu
        · rintro ⟨hu1, hn⟩
          have hpu : predSkey (t.name, t.version, node.id) u = false := by
            by_cases hpu1 : predSkey (t.name, t.version, node.id) u = true
            · rcases huniq u hu1 hpu1 with rfl
              exact absurd ⟨hst, List.mem_append_right _ (List.mem_singleton.mpr rfl)⟩ hn
            · exact Bool.eq_false_iff.mpr hpu1
          refine ⟨⟨hu1, ?_⟩, hpu⟩
          rintro ⟨hsu, hqu⟩
          exact hn ⟨hsu, List.mem_append_left _ hqu⟩
      · rw [hsvcs]
        exact (removeFirst_sublist _ _).trans hSw.sub
      · intro x
        have h1 : HasActionEp (servicesRemove t.name t.version node.id acc) x node.id ↔
            (HasActionEp acc x node.id ∧
              ¬(x ∈ t.actions.map Prod.fst ∧ node.id = node.id)) := by
          show CatHasEp (servicesRemove t.name t.version node.id acc).actions x node.id ↔ _
          rw [hacts]
          exact catHasEp_foldRemove t.actions acc.actions x node.id
        have h2 : (∃ u ∈ Q ++ [t], Stale node S u ∧ RecordsA u x) ↔
            ((∃ u ∈ Q, Stale node S u ∧ RecordsA u x) ∨
              (Stale node S t ∧ RecordsA t x)) := by
          rw [exists_mem_append, exists_mem_singleton]
        rw [h1, hSw.catA x, h2]
        simp only [RecordsA, eq_self_iff_true, and_true]
        constructor
        · rintro ⟨⟨hH, hnQ⟩, hnx⟩
          refine ⟨hH, ?_⟩
          rintro (h | h)
          · exact hnQ h
          · exact hnx h.2
        · rintro ⟨hH, hn⟩
          exact ⟨⟨hH, fun h => hn (Or.inl h)⟩, fun h => hn (Or.inr ⟨hst, h⟩)⟩
      · intro x
        have h1 : HasEventEp (servicesRemove t.name t.version node.id acc) x node.id ↔
            (HasEventEp acc x node.id ∧
              ¬(x ∈ t.events.map Prod.fst ∧ node.id = node.id)) := by
          show CatHasEp (servicesRemove t.name t.version node.id acc).events x node.id ↔ _
          rw [hevts]
          exact catHasEp_foldRemove t.events acc.events x node.id
        have h2 : (∃ u ∈ Q ++ [t], Stale node S u ∧ RecordsE u x) ↔
            ((∃ u ∈ Q, Stale node S u ∧ RecordsE u x) ∨
              (Stale node S t ∧ RecordsE t x)) := by
          rw [exists_mem_append, exists_mem_singleton]
        rw [h1, hSw.catE x, h2]
        simp only [RecordsE, eq_self_iff_true, and_true]
        constructor
        · rintro ⟨⟨hH, hnQ⟩, hnx⟩
          refine ⟨hH, ?_⟩
          rintro (h | h)
          · exact hnQ h
          · exact hnx h.2
        · rintro ⟨hH, hn⟩
          exact ⟨⟨hH, fun h => hn (Or.inl h)⟩, fun h => hn (Or.inr ⟨hst, h⟩)⟩
      · intro nid hne x
        have h1 : HasActionEp (servicesRemove t.name t.version node.id acc) x nid ↔
            (HasActionEp acc x nid ∧
              ¬(x ∈ t.actions.map Prod.fst ∧ nid = node.id)) := by
          show CatHasEp (servicesRemove t.name t.version node.id acc).actions x nid ↔ _
          rw [hacts]
          exact catHasEp_foldRemove t.actions acc.actions x nid
        rw [h1, and_iff_left (fun h => hne h.2)]
        exact hSw.frameA nid hne x
      · intro nid hne x
        have h1 : HasEventEp (servicesRemove t.name t.version node.id acc) x nid ↔
            (HasEventEp acc x nid ∧
              ¬(x ∈ t.events.map Prod.fst ∧ nid = node.id)) := by
          show CatHasEp (servicesRemove t.name t.version node.id acc).events x nid ↔ _
          rw [hevts]
          exact catHasEp_foldRemove t.events acc.events x nid
        rw [h1, and_iff_left (fun h => hne h.2)]
        exact hSw.frameE nid hne x

/-- The whole phase-2 sweep, as a fold over the snapshot suffix. -/
theorem sweep_fold {st0 st1 : Registry} {node : Node} {S : List ServiceDesc}
    (hid0 : node.id ≠ "") (hM : Mid st0 node S st1) :
    ∀ (R Q : List ServiceItem) (acc : Registry),
      st1.services = Q ++ R → Sweep st1 node S Q acc →
      Sweep st1 node S (Q ++ R) (R.foldl (phase2step node S) acc) := by
  intro R
  induction R with
  | nil =>
    intro Q acc h hSw
    rw [List.foldl_nil, List.append_nil]
    exact hSw
  | cons t R ih =>
    intro Q acc hsplit hSw
    rw [List.foldl_cons]
    have h1 := sweep_step hid0 hM hsplit hSw
    have hsplit2 : st1.services = (Q ++ [t]) ++ R := by
      rw [List.append_assoc]
      exact hsplit
    have h2 := ih (Q ++ [t]) _ hsplit2 h1
    rw [List.append_assoc, List.singleton_append] at h2
    exact h2

/-- Master reconciliation theorem: under `ReconcileOK`, `registerServices`
succeeds, after it the node's recorded service identities and its action and
event endpoint records are exactly those described by the snapshot, and every
other node's records are untouched. -/
theorem registerServices_exact {st0 : Registry} {node : Node} {S : List ServiceDesc}
    (hR : ReconcileOK st0 node S) :
    ∃ st2, registerServices node S st0 = Except.ok st2 ∧
      (∀ k, HasService st2 k node.id ↔ k ∈ S.map (fun d => (d.name, d.version))) ∧
      (∀ x, HasActionEp st2 x node.id ↔ ∃ d ∈ S, DescribesA d x) ∧
      (∀ x, HasEventEp st2 x node.id ↔ ∃ d ∈ S, DescribesE d x) ∧
      (∀ nid, nid ≠ node.id →
        ((∀ k, HasService st2 k nid ↔ HasService st0 k nid) ∧
         (∀ x, HasActionEp st2 x nid ↔ HasActionEp st0 x nid) ∧
         (∀ x, HasEventEp st2 x nid ↔ HasEventEp st0 x nid))) := by
  rcases phase1_fold hR S [] st0 (List.nil_append S).symm (mid_init st0 node hR)
    with ⟨st1, hfold, hM⟩
  have hreg : registerServices node S st0 =
      Except.ok (removeStaleServices node S st1) := by
    simp only [registerServices, hfold]
  have hSw0 := sweep_fold hR.nodeIdNe hM st1.services [] st1 rfl (sweep_init st1 node S)
  rw [List.nil_append] at hSw0
  have hSw : Sweep st1 node S st1.services (removeStaleServices node S st1) := hSw0
  refine ⟨removeStaleServices node S st1, hreg, ?_, ?_, ?_, ?_⟩
  · -- the node's service identities are exactly the snapshot's
    intro k
    have hmem : ∀ u, u ∈ (removeStaleServices node S st1).services ↔
        (u ∈ st1.services ∧ ¬ Stale node S u) := by
      intro u
      rw [hSw.mem u]
      constructor
      · rintro ⟨h1, h2⟩
        exact ⟨h1, fun hs => h2 ⟨hs, h1⟩⟩
      · rintro ⟨h1, h2⟩
        exact ⟨h1, fun hs => h2 hs.1⟩
    constructor
    · rintro ⟨s, hs2, hid, hk⟩
      rcases (hmem s).mp hs2 with ⟨hs1, hnost⟩
      have hkin : (s.name, s.version) ∈ S.map (fun d => (d.name, d.version)) := by
        by_contra hkn
        exact hnost ⟨hid, hkn⟩
      rw [hk] at hkin
      exact hkin
    · intro hk
      rcases (hM.keys k).mpr (Or.inr hk) with ⟨s, hs1, hid, hkey⟩
      have hs2 : s ∈ (removeStaleServices node S st1).services :=
        (hmem s).mpr ⟨hs1, fun hs => hs.2 (hkey ▸ hk)⟩
      exact ⟨s, hs2, hid, hkey⟩
  · -- the node's action endpoints are exactly the snapshot's
    intro x
    rw [hSw.catA x, hM.catA x]
    constructor
    · rintro ⟨hcat, hnst⟩
      rcases hcat with hdesc | ⟨h0, hncl⟩
      · exact hdesc
      · rcases hR.orphanA x h0 with ⟨s0, hs0, hid0, hrec0⟩
        by_cases hk0 : (s0.name, s0.version) ∈ S.map (fun d => (d.name, d.version))
        · rcases List.mem_map.mp hk0 with ⟨d, hd, hkeq⟩
          have hprior : PriorA st0 node (d.name, d.version) x :=
            ⟨s0, hs0, hid0, by rw [hkeq], hrec0⟩
          by_cases hdx : DescribesA d x
          · exact ⟨d, hd, hdx⟩
          · exact absurd ⟨d, hd, hprior, hdx⟩ hncl
        · have hs1 : s0 ∈ st1.services := hM.kept s0 hs0 hid0 hk0
          exact absurd ⟨s0, hs1, ⟨hid0, hk0⟩, hrec0⟩ hnst
    · rintro ⟨d, hd, hdx⟩
      refine ⟨Or.inl ⟨d, hd, hdx⟩, ?_⟩
      rintro ⟨t, ht1, ⟨htid, htnk⟩, htrec⟩
      have ht0 : t ∈ st0.services := hM.untouched t ht1 htid htnk
      have hne : (t.name, t.version) ≠ (d.name, d.version) :=
        fun heq => htnk (heq ▸ List.mem_map.mpr ⟨d, hd, rfl⟩)
      exact hR.disjApre d hd t ht0 htid hne x hdx htrec
  · -- the node's event endpoints are exactly the snapshot's
    intro x
    rw [hSw.catE x, hM.catE x]
    constructor
    · rintro ⟨hcat, hnst⟩
      rcases hcat with hdesc | ⟨h0, hncl⟩
      · exact hdesc
      · rcases hR.orphanE x h0 with ⟨s0, hs0, hid0, hrec0⟩
        by_cases hk0 : (s0.name, s0.version) ∈ S.map (fun d => (d.name, d.version))
        · rcases List.mem_map.mp hk0 with ⟨d, hd, hkeq⟩
          have hprior : PriorE st0 node (d.name, d.version) x :=
            ⟨s0, hs0, hid0, by rw [hkeq], hrec0⟩
          by_cases hdx : DescribesE d x
          · exact ⟨d, hd, hdx⟩
          · exact absurd ⟨d, hd, hprior, hdx⟩ hncl
        · have hs1 : s0 ∈ st1.services := hM.kept s0 hs0 hid0 hk0
          exact absurd ⟨s0, hs1, ⟨hid0, hk0⟩, hrec0⟩ hnst
    · rintro ⟨d, hd, hdx⟩
      refine ⟨Or.inl ⟨d, hd, hdx⟩, ?_⟩
      rintro ⟨t, ht1, ⟨htid, htnk⟩, htrec⟩
      have ht0 : t ∈ st0.services := hM.untouched t ht1 htid htnk
      have hne : (t.name, t.version) ≠ (d.name, d.version) :=
        fun heq => htnk (heq ▸ List.mem_map.mpr ⟨d, hd, rfl⟩)
      exact hR.disjEpre d hd t ht0 htid hne x hdx htrec
  · -- every other node's records are untouched
    intro nid hne
    refine ⟨?_, fun x => (hSw.frameA nid hne x).trans (hM.frameA nid hne x),
      fun x => (hSw.frameE nid hne x).trans (hM.frameE nid hne x)⟩
    intro k
    constructor
    · rintro ⟨s, hs2, hid, hk⟩
      have hs1 : s ∈ st1.services := ((hSw.mem s).mp hs2).1
      have hsid : s.node.id ≠ node.id := by rw [hid]; exact hne
      exact ⟨s, (hM.othersvc s hsid).mp hs1, hid, hk⟩
    · rintro ⟨s, hs0, hid, hk⟩
      have hsid : s.node.id ≠ node.id := by rw [hid]; exact hne
      have hs1 : s ∈ st1.services := (hM.othersvc s hsid).mpr hs0
      have hs2 : s ∈ (removeStaleServices node S st1).services :=
        (hSw.mem s).mpr ⟨hs1, fun h => hsid h.1.1⟩
      exact ⟨s, hs2, hid, hk⟩

instance (node : Node) (s t : ServiceItem) : Decidable (keyRel node s t) := by
  unfold keyRel; infer_instance

/-- The reconciliation hypotheses are stable under permuting the snapshot. -/
theorem reconcileOK_perm {st0 : Registry} {node : Node} {S S' : List ServiceDesc}
    (hR : ReconcileOK st0 node S) (hp : S'.Perm S) : ReconcileOK st0 node S' := by
  refine ⟨hR.nodeIdNe, fun d hd => hR.descActs d (hp.subset hd),
    fun d hd => hR.descEvts d (hp.subset hd),
    fun d hd => hR.keyNamesA d (hp.subset hd),
    fun d hd => hR.keyNamesE d (hp.subset hd),
    ((hp.map (fun d => (d.name, d.version))).nodup_iff).mpr hR.keysNodup,
    hR.nodeIdIff, hR.nodeRefIff, hR.uniq, hR.orphanA, hR.orphanE,
    fun d hd e he => hR.disjAdd d (hp.subset hd) e (hp.subset he),
    fun d hd => hR.disjApre d (hp.subset hd),
    hR.disjAold,
    fun d hd e he => hR.disjEdd d (hp.subset hd) e (hp.subset he),
    fun d hd => hR.disjEpre d (hp.subset hd),
    hR.disjEold⟩

/-- C1 (amended).  For a node with a truthy (non-empty) id, a well-formed
snapshot `S` (maps present and keyed by the entries' own names,
pairwise-distinct descriptor identities) and a prior state consistent for
`node` (unambiguous identities, node references in agreement with node ids,
no orphan endpoint, and no action or event name shared between two distinct
service identities of the node across the prior state and `S` — the
`ReconcileOK` bundle), `registerServices(node, S)` succeeds and afterwards
the node's recorded service identities and its action and event endpoint
records equal exactly those described in `S`, every other node's records are
untouched, and all of these observables are independent of the order of
descriptors in `S`.  A falsy node id breaks the whole-node sweep (its
`nodeID || this.broker.nodeID` defaulting mistargets the broker), and the
claim's unconditional form is refuted even for truthy ids by
`registerServices_collision_counterexample`. -/
theorem registerServices_converges {st0 : Registry} {node : Node}
    {S S' : List ServiceDesc} (hR : ReconcileOK st0 node S) (hp : S'.Perm S) :
    ∃ st2 st2',
      registerServices node S st0 = Except.ok st2 ∧
      registerServices node S' st0 = Except.ok st2' ∧
      (∀ k, HasService st2 k node.id ↔ k ∈ S.map (fun d => (d.name, d.version))) ∧
      (∀ x, HasActionEp st2 x node.id ↔ ∃ d ∈ S, DescribesA d x) ∧
      (∀ x, HasEventEp st2 x node.id ↔ ∃ d ∈ S, DescribesE d x) ∧
      (∀ nid, nid ≠ node.id →
        ((∀ k, HasService st2 k nid ↔ HasService st0 k nid) ∧
         (∀ x, HasActionEp st2 x nid ↔ HasActionEp st0 x nid) ∧
         (∀ x, HasEventEp st2 x nid ↔ HasEventEp st0 x nid))) ∧
      (∀ k nid, HasService st2' k nid ↔ HasService st2 k nid) ∧
      (∀ x nid, HasActionEp st2' x nid ↔ HasActionEp st2 x nid) ∧
      (∀ x nid, HasEventEp st2' x nid ↔ HasEventEp st2 x nid) := by
  have hR' : ReconcileOK st0 node S' := reconcileOK_perm hR hp
  rcases registerServices_exact hR with ⟨st2, hreg, hkeys, hact, hevt, hframe⟩
  rcases registerServices_exact hR' with ⟨st2', hreg', hkeys', hact', hevt', hframe'⟩
  refine ⟨st2, st2', hreg, hreg', hkeys, hact, hevt, hframe, ?_, ?_, ?_⟩
  · intro k nid
    by_cases hb : nid = node.id
    · subst hb
      rw [hkeys' k, hkeys k, (hp.map (fun d => (d.name, d.version))).mem_iff]
    · rw [((hframe' nid hb).1) k, ((hframe nid hb).1) k]
  · intro x nid
    by_cases hb : nid = node.id
    · subst hb
      rw [hact' x, hact x]
      constructor
      · rintro ⟨d, hd, hdx⟩
        exact ⟨d, hp.subset hd, hdx⟩
      · rintro ⟨d, hd, hdx⟩
        exact ⟨d, hp.mem_iff.mpr hd, hdx⟩
    · rw [(hframe' nid hb).2.1 x, (hframe nid hb).2.1 x]
  · intro x nid
    by_cases hb : nid = node.id
    · subst hb
      rw [hevt' x, hevt x]
      constructor
      · rintro ⟨d, hd, hdx⟩
        exact ⟨d, hp.subset hd, hdx⟩
      · rintro ⟨d, hd, hdx⟩
        exact ⟨d, hp.mem_iff.mpr hd, hdx⟩
    · rw [(hframe' nid hb).2.2 x, (hframe nid hb).2.2 x]

/-- Node used in the action-name collision scenario. -/
def c1Node : Node := ⟨1, "n1"⟩

/-- Prior service `a@1` of node `n1`, recording action `x`. -/
def c1PriorSvc : ServiceItem :=
  ⟨c1Node, some "a", some 1, none, [("x", ⟨"x", 0⟩)], []⟩

/-- Prior state: `a@1` on `n1` with a catalog endpoint for action `x`. -/
def c1Prior : Registry :=
  ⟨"local", ⟨0, "local"⟩, [], [c1PriorSvc],
    [⟨"x", [⟨"n1", (some "a", some 1, "n1"), ⟨"x", 0⟩, true⟩]⟩], []⟩

/-- Incoming snapshot descriptor: a different service `b@1` of the same node,
also carrying an action named `x`. -/
def c1Desc : ServiceDesc :=
  ⟨some "b", some 1, none, some [("x", ⟨"x", 1⟩)], some []⟩

/-- The state `registerServices(c1Node, [c1Desc])` produces from `c1Prior`. -/
def c1After : Registry :=
  match registerServices c1Node [c1Desc] c1Prior with
  | Except.ok st => st
  | Except.error _ => c1Prior

/-- C1 (counterexample).  The unconditional claim is false: when an action
name collides across two service identities of the same node, the snapshot's
own action endpoint is lost.  Here the snapshot `[c1Desc]` describes action
`x` for service `b@1` of node `n1`, the call succeeds and records `b@1`, yet
afterwards the registry holds no `x` action endpoint for `n1`: the stale-
service sweep of `a@1` removed the endpoint that the snapshot had just
registered, so the recorded actions do not equal those described in the
snapshot. -/
theorem registerServices_collision_counterexample :
    registerServices c1Node [c1Desc] c1Prior = Except.ok c1After ∧
    (∃ d ∈ [c1Desc], DescribesA d "x") ∧
    HasService c1After (some "b", some 1) c1Node.id ∧
    ¬ HasActionEp c1After "x" c1Node.id :=
  ⟨rfl, by decide, by decide, by decide⟩

/-- Node of the convergence witness. -/
def cwNode : Node := ⟨7, "nw"⟩

/-- First well-formed descriptor of the witness snapshot. -/
def cwDescA : ServiceDesc :=
  ⟨some "alpha", some 1, none, some [("a1", ⟨"a1", 0⟩)], some [("e1", ⟨"e1", none, 0⟩)]⟩

/-- Second well-formed descriptor of the witness snapshot. -/
def cwDescB : ServiceDesc :=
  ⟨some "beta", some 1, none, some [("b1", ⟨"b1", 0⟩)], some []⟩

/-- The empty prior state of the convergence witness. -/
def cwEmpty : Registry := ⟨"local", ⟨0, "local"⟩, [], [], [], []⟩

theorem cwReconcileOK : ReconcileOK cwEmpty cwNode [cwDescA, cwDescB] := by
  refine ⟨by decide, by decide, by decide, by decide, by decide, by decide,
    by decide, by decide, List.Pairwise.nil, ?_, ?_, ?_, ?_, ?_, ?_, ?_, ?_⟩
  · intro x hx
    rcases hx with ⟨L, hL, _⟩
    exact absurd hL (List.not_mem_nil L)
  · intro x hx
    rcases hx with ⟨L, hL, _⟩
    exact absurd hL (List.not_mem_nil L)
  · intro d hd e he hne x hx
    rcases List.mem_cons.mp hd with rfl | hd
    · rcases List.mem_cons.mp he with rfl | he
      · exact absurd rfl hne
      · rcases List.mem_singleton.mp he with rfl
        have hx2 : x = "a1" := List.mem_singleton.mp hx
        subst hx2
        decide
    · rcases List.mem_singleton.mp hd with rfl
      rcases List.mem_cons.mp he with rfl | he
      · have hx2 : x = "b1" := List.mem_singleton.mp hx
        subst hx2
        decide
      · rcases List.mem_singleton.mp he with rfl
        exact absurd rfl hne
  · intro d _ s hs
    exact absurd hs (List.not_mem_nil s)
  · intro s t hs
    exact absurd hs (List.not_mem_nil s)
  · intro d hd e he hne x hx
    rcases List.mem_cons.mp hd with rfl | hd
    · rcases List.mem_cons.mp he with rfl | he
      · exact absurd rfl hne
      · rcases List.mem_singleton.mp he with rfl
        have hx2 : x = "e1" := List.mem_singleton.mp hx
        subst hx2
        decide
    · rcases List.mem_singleton.mp hd with rfl
      rcases List.mem_cons.mp he with rfl | he
      · exact absurd hx (List.not_mem_nil x)
      · rcases List.mem_singleton.mp he with rfl
        exact absurd rfl hne
  · intro d _ s hs
    exact absurd hs (List.not_mem_nil s)
  · intro s t hs
    exact absurd hs (List.not_mem_nil s)

/-- Closed instantiation of `registerServices_converges`: registering the
two-descriptor snapshot on the empty state in either order succeeds, records
exactly the snapshot, and both orders agree on every observable. -/
theorem registerServices_converges_witness :
    ∃ st2 st2',
      registerServices cwNode [cwDescA, cwDescB] cwEmpty = Except.ok st2 ∧
      registerServices cwNode [cwDescB, cwDescA] cwEmpty = Except.ok st2' ∧
      (∀ k, HasService st2 k cwNode.id ↔
        k ∈ [cwDescA, cwDescB].map (fun d => (d.name, d.version))) ∧
      (∀ x, HasActionEp st2 x cwNode.id ↔ ∃ d ∈ [cwDescA, cwDescB], DescribesA d x) ∧
      (∀ x, HasEventEp st2 x cwNode.id ↔ ∃ d ∈ [cwDescA, cwDescB], DescribesE d x) ∧
      (∀ nid, nid ≠ cwNode.id →
        ((∀ k, HasService st2 k nid ↔ HasService cwEmpty k nid) ∧
         (∀ x, HasActionEp st2 x nid ↔ HasActionEp cwEmpty x nid) ∧
         (∀ x, HasEventEp st2 x nid ↔ HasEventEp cwEmpty x nid))) ∧
      (∀ k nid, HasService st2' k nid ↔ HasService st2 k nid) ∧
      (∀ x nid, HasActionEp st2' x nid ↔ HasActionEp st2 x nid) ∧
      (∀ x nid, HasEventEp st2' x nid ↔ HasEventEp st2 x nid) :=
  registerServices_converges cwReconcileOK (List.Perm.swap cwDescA cwDescB [])

/-- C8 (amended).  Scenario B frame effect: in a consistent state where node
`A` and node `B` both serve action `add` (and nobody else does) and `B` alone
serves action `sub`, reconciling a well-formed snapshot from `B` that still
describes `add` but omits `sub` succeeds, leaves no `sub` endpoint for any
node (the `sub` EndpointList becomes empty or absent), and leaves the `add`
endpoints untouched: exactly `A` and `B`.  `B`'s id must be truthy — the
`ReconcileOK` bundle carries `nodeIdNe`; with a falsy id the whole-node
sweep's `nodeID || this.broker.nodeID` defaulting mistargets the broker and
the `sub` endpoint of a stale service survives
(`scenarioB_empty_id_counterexample`). -/
theorem scenarioB_frame {st0 : Registry} {nodeB : Node} {S : List ServiceDesc}
    {A : String}
    (hR : ReconcileOK st0 nodeB S)
    (hadd0 : ∀ nid, HasActionEp st0 "add" nid ↔ (nid = A ∨ nid = nodeB.id))
    (hsub0 : ∀ nid, HasActionEp st0 "sub" nid ↔ nid = nodeB.id)
    (hsnapAdd : ∃ d ∈ S, DescribesA d "add")
    (hsnapSub : ∀ d ∈ S, ¬ DescribesA d "sub") :
    ∃ st2, registerServices nodeB S st0 = Except.ok st2 ∧
      (∀ nid, ¬ HasActionEp st2 "sub" nid) ∧
      (∀ nid, HasActionEp st2 "add" nid ↔ (nid = A ∨ nid = nodeB.id)) := by
  rcases registerServices_exact hR with ⟨st2, hreg, _, hact, _, hframe⟩
  refine ⟨st2, hreg, ?_, ?_⟩
  · intro nid h
    by_cases hb : nid = nodeB.id
    · subst hb
      rcases (hact "sub").mp h with ⟨d, hd, hdx⟩
      exact hsnapSub d hd hdx
    · have h0 := ((hframe nid hb).2.1 "sub").mp h
      exact hb ((hsub0 nid).mp h0)
  · intro nid
    by_cases hb : nid = nodeB.id
    · subst hb
      constructor
      · intro _
        exact Or.inr rfl
      · intro _
        exact (hact "add").mpr hsnapAdd
    · rw [(hframe nid hb).2.1 "add", hadd0 nid, or_iff_left hb]

/-- Node `B` of the Scenario B witness. -/
def c8NodeB : Node := ⟨2, "nB"⟩

/-- Node `A`'s recorded service, serving action `add`. -/
def c8SvcA : ServiceItem :=
  ⟨⟨1, "nA"⟩, some "svcA", some 1, none, [("add", ⟨"add", 0⟩)], []⟩

/-- Node `B`'s recorded service, serving actions `add` and `sub`. -/
def c8SvcB : ServiceItem :=
  ⟨c8NodeB, some "svcB", some 1, none, [("add", ⟨"add", 1⟩), ("sub", ⟨"sub", 2⟩)], []⟩

/-- Prior state of the Scenario B witness: `add` endpoints for `nA` and `nB`,
a `sub` endpoint for `nB` only. -/
def c8Prior : Registry :=
  ⟨"local", ⟨0, "local"⟩, [],
    [c8SvcA, c8SvcB],
    [⟨"add", [⟨"nA", (some "svcA", some 1, "nA"), ⟨"add", 0⟩, true⟩,
              ⟨"nB", (some "svcB", some 1, "nB"), ⟨"add", 1⟩, true⟩]⟩,
     ⟨"sub", [⟨"nB", (some "svcB", some 1, "nB"), ⟨"sub", 2⟩, true⟩]⟩],
    []⟩

/-- `B`'s next snapshot: `svcB@1` still carries `add` but omits `sub`. -/
def c8Desc : ServiceDesc :=
  ⟨some "svcB", some 1, none, some [("add", ⟨"add", 3⟩)], some []⟩

theorem c8ReconcileOK : ReconcileOK c8Prior c8NodeB [c8Desc] := by
  refine ⟨by decide, by decide, by decide, by decide, by decide, by decide,
    by decide, by decide, by decide, ?_, ?_, ?_, ?_, ?_, ?_, ?_, ?_⟩
  · intro x hx
    rcases hx with ⟨L, hL, hname, hep⟩
    rcases List.mem_cons.mp hL with rfl | hL
    · subst hname
      decide
    · rcases List.mem_singleton.mp hL with rfl
      subst hname
      decide
  · intro x hx
    rcases hx with ⟨L, hL, _⟩
    exact absurd hL (List.not_mem_nil L)
  · intro d hd e he hne
    rcases List.mem_singleton.mp hd with rfl
    rcases List.mem_singleton.mp he with rfl
    exact absurd rfl hne
  · intro d hd s hs hid hne x hx
    rcases List.mem_singleton.mp hd with rfl
    rcases List.mem_cons.mp hs with rfl | hs
    · exact absurd hid (by decide)
    · rcases List.mem_singleton.mp hs with rfl
      exact absurd rfl hne
  · intro s t hs ht hids hidt hne x hx
    rcases List.mem_cons.mp hs with rfl | hs
    · exact absurd hids (by decide)
    · rcases List.mem_singleton.mp hs with rfl
      rcases List.mem_cons.mp ht with rfl | ht
      · exact absurd hidt (by decide)
      · rcases List.mem_singleton.mp ht with rfl
        exact absurd rfl hne
  · intro d hd e he hne
    rcases List.mem_singleton.mp hd with rfl
    rcases List.mem_singleton.mp he with rfl
    exact absurd rfl hne
  · intro d hd s hs hid hne x hx
    rcases List.mem_singleton.mp hd with rfl
    exact absurd hx (List.not_mem_nil x)
  · intro s t hs ht hids hidt hne x hx
    rcases List.mem_cons.mp hs with rfl | hs
    · exact absurd hx (List.not_mem_nil x)
    · rcases List.mem_singleton.mp hs with rfl
      exact absurd hx (List.not_mem_nil x)

theorem c8add0 : ∀ nid, HasActionEp c8Prior "add" nid ↔ (nid = "nA" ∨ nid = "nB") := by
  intro nid
  constructor
  · rintro ⟨L, hL, hname, ep, hep, hid⟩
    rcases List.mem_cons.mp hL with rfl | hL
    · rcases List.mem_cons.mp hep with rfl | hep
      · exact Or.inl hid.symm
      · rcases List.mem_singleton.mp hep with rfl
        exact Or.inr hid.symm
    · rcases List.mem_singleton.mp hL with rfl
      exact absurd hname (by decide)
  · rintro (rfl | rfl)
    · decide
    · decide

theorem c8sub0 : ∀ nid, HasActionEp c8Prior "sub" nid ↔ nid = "nB" := by
  intro nid
  constructor
  · rintro ⟨L, hL, hname, ep, hep, hid⟩
    rcases List.mem_cons.mp hL with rfl | hL
    · exact absurd hname (by decide)
    · rcases List.mem_singleton.mp hL with rfl
      rcases List.mem_singleton.mp hep with rfl
      exact hid.symm
  · rintro rfl
    decide

/-- Closed instantiation of `scenarioB_frame` on the two-node state: after
`B`'s snapshot without `sub`, no node has a `sub` endpoint and the `add`
endpoints are still exactly `nA` and `nB`. -/
theorem scenarioB_frame_witness :
    ∃ st2, registerServices c8NodeB [c8Desc] c8Prior = Except.ok st2 ∧
      (∀ nid, ¬ HasActionEp st2 "sub" nid) ∧
      (∀ nid, HasActionEp st2 "add" nid ↔ (nid = "nA" ∨ nid = c8NodeB.id)) :=
  scenarioB_frame c8ReconcileOK c8add0 c8sub0 (by decide) (by decide)

/-- Node `B` with a falsy (empty-string) id. -/
def c8eNodeB : Node := ⟨2, ""⟩

/-- Node `A`'s recorded service, serving action `add`. -/
def c8eSvcA : ServiceItem :=
  ⟨⟨1, "nA"⟩, some "svcA", some 1, none, [("add", ⟨"add", 0⟩)], []⟩

/-- First recorded service of the falsy-id node `B`, serving `add`. -/
def c8eSvcOne : ServiceItem :=
  ⟨c8eNodeB, some "one", some 1, none, [("add", ⟨"add", 1⟩)], []⟩

/-- Second recorded service of the falsy-id node `B`, serving `sub`. -/
def c8eSvcTwo : ServiceItem :=
  ⟨c8eNodeB, some "two", some 1, none, [("sub", ⟨"sub", 2⟩)], []⟩

/-- Prior state of the falsy-id scenario: `add` endpoints for `nA` and for the
empty-id node, a `sub` endpoint for the empty-id node only. -/
def c8ePrior : Registry :=
  ⟨"local", ⟨0, "local"⟩, [],
    [c8eSvcA, c8eSvcOne, c8eSvcTwo],
    [⟨"add", [⟨"nA", (some "svcA", some 1, "nA"), ⟨"add", 0⟩, true⟩,
              ⟨"", (some "one", some 1, ""), ⟨"add", 1⟩, true⟩]⟩,
     ⟨"sub", [⟨"", (some "two", some 1, ""), ⟨"sub", 2⟩, true⟩]⟩],
    []⟩

/-- `B`'s next snapshot: only `one@1` with `add`; the `sub`-serving service
`two@1` is omitted entirely. -/
def c8eDesc : ServiceDesc :=
  ⟨some "one", some 1, none, some [("add", ⟨"add", 3⟩)], some []⟩

/-- The state `registerServices(c8eNodeB, [c8eDesc])` produces from
`c8ePrior`. -/
def c8eAfter : Registry :=
  match registerServices c8eNodeB [c8eDesc] c8ePrior with
  | Except.ok st => st
  | Except.error _ => c8ePrior

/-- C8 (counterexample).  The unconditional scenario fails when `B`'s node id
is falsy: here `nA` and the empty-id node both serve `add` (and nobody else),
the empty-id node alone serves `sub`, and its snapshot still describes `add`
while omitting `sub` — the claim's hypotheses.  The call succeeds, yet the
`sub` endpoint survives: the whole-node sweep removes the stale service
`two@1` via `unregisterService(..., node.id)`, whose
`nodeID || this.broker.nodeID` defaulting turns the falsy id into the broker
id `local`, so the removal targets a service that does not exist and the
`sub` EndpointList does not become empty or absent. -/
theorem scenarioB_empty_id_counterexample :
    registerServices c8eNodeB [c8eDesc] c8ePrior = Except.ok c8eAfter ∧
    (∀ nid, HasActionEp c8ePrior "add" nid ↔ (nid = "nA" ∨ nid = c8eNodeB.id)) ∧
    (∀ nid, HasActionEp c8ePrior "sub" nid ↔ nid = c8eNodeB.id) ∧
    (∃ d ∈ [c8eDesc], DescribesA d "add") ∧
    (∀ d ∈ [c8eDesc], ¬ DescribesA d "sub") ∧
    HasActionEp c8eAfter "sub" c8eNodeB.id := by
  refine ⟨rfl, ?_, ?_, by decide, by decide, by decide⟩
  · intro nid
    constructor
    · rintro ⟨L, hL, hname, ep, hep, hid⟩
      rcases List.mem_cons.mp hL with rfl | hL
      · rcases List.mem_cons.mp hep with rfl | hep
        · exact Or.inl hid.symm
        · rcases List.mem_singleton.mp hep with rfl
          exact Or.inr hid.symm
      · rcases List.mem_singleton.mp hL with rfl
        exact absurd hname (by decide)
    · rintro (rfl | rfl)
      · decide
      · decide
  · intro nid
    constructor
    · rintro ⟨L, hL, hname, ep, hep, hid⟩
      rcases List.mem_cons.mp hL with rfl | hL
      · exact absurd hname (by decide)
      · rcases List.mem_singleton.mp hL with rfl
        rcases List.mem_singleton.mp hep with rfl
        exact hid.symm
    · rintro rfl
      decide

end Moleculer
